import Mathlib

/-!
Verification development for the source-overlay package resolver of
`go/packages/golist_overlay.go`.

The Go code is shallowly embedded: the external `go list` tool, the Go
standard library parser (`go/parser`), and `filepath.Abs` are modelled as
oracles supplied to the functions (the repository treats them as opaque
collaborators), while every piece of control flow of the embedded file is
translated directly.  Pointer identity of `*Package` values inside the
response slice is modelled by list indices; in-place mutation is modelled
by functional update of the list.  String helpers of the Go standard
library (`strings.HasSuffix`, `filepath.Base`, `filepath.Dir`, ...) are
given executable models over the character list of the string so that
every definition evaluates inside the kernel.
-/

set_option maxRecDepth 8000

namespace Overlay

/-- Model of `strings.HasSuffix`: `s` ends with `suf`. -/
def strEndsWith (s suf : String) : Bool := suf.data.isSuffixOf s.data

/-- Model of `strings.HasPrefix`: `s` starts with `pre`. -/
def strStartsWith (s pre : String) : Bool := pre.data.isPrefixOf s.data

/-- Splitting a character list at every occurrence of `sep`. -/
def splitCharAux (sep : Char) : List Char → List Char → List (List Char)
  | [], acc => [acc.reverse]
  | c :: cs, acc =>
    if c = sep then acc.reverse :: splitCharAux sep cs []
    else splitCharAux sep cs (c :: acc)

/-- Model of `strings.Split` with a one-character separator. -/
def splitChar (sep : Char) (s : String) : List String :=
  (splitCharAux sep s.data []).map String.mk

/-- Dropping the first `n` characters of a string. -/
def strDrop (s : String) (n : Nat) : String := String.mk (s.data.drop n)

/-- Joining path elements with slashes. -/
def joinSlash : List String → String
  | [] => ""
  | [x] => x
  | x :: xs => x ++ "/" ++ joinSlash xs

/-- Model of `filepath.Base` for clean, slash-separated paths: the final
path element. -/
def filepathBase (p : String) : String :=
  match (splitChar '/' p).getLast? with
  | some b => b
  | none => p

/-- Model of `filepath.Dir` for clean, slash-separated paths: everything
before the final path element. -/
def filepathDir (p : String) : String :=
  let parts := splitChar '/' p
  if parts.length ≤ 1 then "." else joinSlash parts.dropLast

/-- Embedding of the `Package` record (the fields read or written by
`golist_overlay.go`).  `Imports` is the map from import path to the
identifier of the imported package: the Go code only ever stores stub
packages carrying nothing but an `ID`, so an association list of
(import path, target identifier) pairs is a faithful rendering. -/
structure Package where
  ID : String
  PkgPath : String
  Name : String
  GoFiles : List String
  CompiledGoFiles : List String
  OtherFiles : List String
  ExportFile : String
  Imports : List (String × String)
  Errors : List String
deriving DecidableEq, Repr, Inhabited

/-- The overlay value for one file.  The raw bytes are never inspected by
the embedded code except through `go/parser`, an external library; the two
possible parses are therefore carried as oracles: `pkgName` is the result
of the `PackageClauseOnly` parse (`none` = parse error), `importList` the
result of the `ImportsOnly` parse plus unquoting (`none` = error). -/
structure Contents where
  pkgName : Option String
  importList : Option (List String)
deriving DecidableEq, Repr, Inhabited

/-- Go map assignment `m[k] = v` on an association list: replace the
binding when the key is present, append it otherwise. -/
def mapSet (m : List (String × String)) (k v : String) : List (String × String) :=
  if m.any (fun e => e.1 == k) then m.map (fun e => if e.1 == k then (k, v) else e)
  else m ++ [(k, v)]

/-- Go map lookup `m[k]` on an association list. -/
def mapLookup (m : List (String × String)) (k : String) : Option String :=
  (m.find? (fun e => e.1 == k)).map (fun e => e.2)

/-- Go set insertion `s[x] = true`, keeping insertion order. -/
def insertSet (s : List String) (x : String) : List String :=
  if x ∈ s then s else s ++ [x]

/-- Modelled from the spec: the repository helper `sameFile` (outside the
excerpt) decides whether two paths denote the same file or directory; for
the in-memory model two directories are the same exactly when their
cleaned paths are equal (the on-disk stat fallback is a filesystem
effect). -/
def sameFile (x y : String) : Bool := x == y

/-- Embedding of `hasTestFiles`. -/
def hasTestFiles (p : Package) : Bool :=
  p.GoFiles.any (fun f => strEndsWith f "_test.go")

/-- Embedding of `extractPackageName`: the `go/parser` call is modelled by
the parse oracle carried in `Contents`; the filename argument is kept for
shape fidelity but, as in the source, only feeds parser diagnostics. -/
def extractPackageName (_filename : String) (contents : Contents) : Option String :=
  contents.pkgName

/-- Embedding of `extractImports`: the `ImportsOnly` parse and the
`strconv.Unquote` of each import path are modelled by the parse oracle
carried in `Contents` (`none` = the error the caller swallows). -/
def extractImports (_filename : String) (contents : Contents) : Option (List String) :=
  contents.importList

/-- One module record decoded from the `go list -m -json all` stream. -/
structure JsonMod where
  Path : String
  Dir : String
deriving DecidableEq, Repr, Inhabited

/-- Loop of `determineRootDirsModules` over the decoded module stream.
`abs` models `filepath.Abs` (`none` = error, which aborts the whole
computation as in the source). -/
def determineRootDirsModulesAux (abs : String → Option String) :
    List JsonMod → List (String × String) → Option (List (String × String))
  | [], m => some m
  | mod :: mods, m =>
    if (mod.Dir != "") && (mod.Path != "") then
      match abs mod.Dir with
      | none => none
      | some absDir => determineRootDirsModulesAux abs mods (mapSet m absDir mod.Path)
    else determineRootDirsModulesAux abs mods m

/-- Embedding of `determineRootDirsModules`: the `go list -m -json all`
invocation and the JSON decoding are modelled by the already-decoded module
list (a decode or invocation error happens before the embedded logic
runs). -/
def determineRootDirsModules (abs : String → Option String)
    (mods : List JsonMod) : Option (List (String × String)) :=
  determineRootDirsModulesAux abs mods []

/-- Modelled from the spec: a root directory covers a directory when the
directory is the root or lies under it. -/
def dirCovers (rdir dir : String) : Bool :=
  rdir == dir || strStartsWith dir (rdir ++ "/")

/-- Modelled from the spec: joining an import-path prefix with the path
relative to the root (an empty prefix means the import path is the
relative path itself). -/
def joinPkgPath (pre rel : String) : String :=
  if pre = "" then rel else if rel = "" then pre else pre ++ "/" ++ rel

/-- Modelled from the spec: the repository helper `getPkgPath` (outside
the excerpt) resolves an absolute directory to an import-path prefix via
the Root Directory Map; `none` means no root covers the directory. -/
def getPkgPath (roots : List (String × String)) (dir : String) : Option String :=
  match roots.find? (fun r => dirCovers r.1 dir) with
  | none => none
  | some (rdir, rpath) =>
    some (joinPkgPath rpath (if rdir == dir then "" else strDrop dir (rdir.length + 1)))

/-- The three mutable locals of the package-search loop of
`processGolistOverlay`: the index of `pkg`, the index of `testVariantOf`,
and `fileExists`. -/
abbrev ScanSt := Option Nat × Option Nat × Bool

/-- The package at index `j` of the response (dereferencing the pointer
the index stands for). -/
def pkgAt (pkgs : List Package) (j : Nat) : Package := pkgs.getD j default

/-- Embedding of the inner loop `for _, f := range p.GoFiles` of the
package search of `processGolistOverlay` (source lines 54-82), for the
package `p` sitting at index `i` of the response.  `continue nextPackage`
is rendered by returning without consuming the remaining files. -/
def scanFiles (pkgs : List Package) (i : Nat) (p : Package) (dir base : String)
    (isTestFile : Bool) : List String → ScanSt → ScanSt
  | [], st => st
  | f :: fs, (pkgIdx, tvIdx, fe) =>
    if sameFile (filepathDir f) dir then
      if isTestFile && !hasTestFiles p then
        (pkgIdx, some i, fe)
      else
        let abort2 :=
          match pkgIdx with
          | some j => (j != i) && ((pkgAt pkgs j).PkgPath == p.PkgPath)
              && hasTestFiles (pkgAt pkgs j)
          | none => false
        if abort2 then (pkgIdx, some i, fe)
        else
          let tvIdx' :=
            match pkgIdx with
            | some j =>
              if (j != i) && ((pkgAt pkgs j).PkgPath == p.PkgPath) && hasTestFiles p then
                some j
              else tvIdx
            | none => tvIdx
          scanFiles pkgs i p dir base isTestFile fs
            (some i, tvIdx', fe || (filepathBase f == base))
    else scanFiles pkgs i p dir base isTestFile fs (pkgIdx, tvIdx, fe)

/-- Embedding of the outer loop `for _, p := range response.dr.Packages`
of the package search (source lines 50-83); `i` is the index of the head
of `rest` within `pkgs`. -/
def scanPackages (pkgs : List Package) (dir base : String) (isTestFile : Bool)
    (pkgName : String) : Nat → List Package → ScanSt → ScanSt
  | _, [], st => st
  | i, p :: ps, st =>
    let st' :=
      if (pkgName != p.Name) && (p.ID != "command-line-arguments") then st
      else scanFiles pkgs i p dir base isTestFile p.GoFiles st
    scanPackages pkgs dir base isTestFile pkgName (i + 1) ps st'

/-- Embedding of `reclaimPackage`.  The Go function returns a Bool and
mutates the candidate through its pointer; here it returns the success
flag together with the resulting candidate value (the candidate is
returned unchanged on every early `return false`, since in the source all
mutation happens after the last guard). -/
def reclaimPackage (pkg : Package) (id filename : String) (contents : Contents) :
    Bool × Package :=
  if pkg.ID ≠ id then (false, pkg)
  else if pkg.Errors.length ≠ 1 then (false, pkg)
  else if pkg.Name ≠ "" ∨ pkg.ExportFile ≠ "" then (false, pkg)
  else if pkg.GoFiles.length > 0 ∨ pkg.CompiledGoFiles.length > 0 ∨
      pkg.OtherFiles.length > 0 then (false, pkg)
  else if pkg.Imports.length > 0 then (false, pkg)
  else
    match extractPackageName filename contents with
    | none => (false, pkg)
    | some pkgName => (true, { pkg with Name := pkgName, Errors := [] })

/-- Embedding of the reclamation loop of `processGolistOverlay` (source
lines 104-109): try each response package in order, stop at the first
success, returning its index and the updated response. -/
def reclaimLoop (id filename : String) (contents : Contents) :
    List Package → Option (Nat × List Package)
  | [] => none
  | p :: ps =>
    let r := reclaimPackage p id filename contents
    if r.1 then some (0, r.2 :: ps)
    else
      match reclaimLoop id filename contents ps with
      | some (j, ps') => some (j + 1, p :: ps')
      | none => none

/-- Functional update of the package the pointer at index `j` denotes. -/
def updateAt : List Package → Nat → (Package → Package) → List Package
  | [], _, _ => []
  | p :: ps, 0, f => f p :: ps
  | p :: ps, n + 1, f => p :: updateAt ps n f

/-- The mutable state threaded through the overlay loop of
`processGolistOverlay`: the response packages, the `havePkgs` map, the
`modifiedPkgsSet` (in insertion order) and the `overlayAddsImports`
flag. -/
structure OState where
  pkgs : List Package
  havePkgs : List (String × String)
  modified : List String
  addsImports : Bool
deriving DecidableEq, Repr, Inhabited

/-- Embedding of the file-attach step (source lines 122-128): when no file
with the same base name was seen, append the overlay path to both file
lists of the resolved package and mark its identifier modified. -/
def attachFile (st : OState) (j : Nat) (opath : String) (fileExists : Bool) : OState :=
  if !fileExists then
    { st with
      pkgs := updateAt st.pkgs j (fun p =>
        { p with GoFiles := p.GoFiles ++ [opath],
                 CompiledGoFiles := p.CompiledGoFiles ++ [opath] }),
      modified := insertSet st.modified (pkgAt st.pkgs j).ID }
  else st

/-- Embedding of the body of the import loop (source lines 134-151) for a
single import path `imp` of the overlay file resolved to package `j` (with
`tvIdx` the index of `testVariantOf`, if any). -/
def addImport (j : Nat) (tvIdx : Option Nat) (st : OState) (imp : String) : OState :=
  if (pkgAt st.pkgs j).Imports.any (fun e => e.1 == imp) then st
  else
    let id := (mapLookup st.havePkgs imp).getD imp
    let pkgs1 := updateAt st.pkgs j (fun p =>
      { p with Imports := mapSet p.Imports imp id })
    let pkgs2 :=
      match tvIdx with
      | some t => updateAt pkgs1 t (fun p =>
          { p with Imports := mapSet p.Imports imp id })
      | none => pkgs1
    { st with pkgs := pkgs2, addsImports := true }

/-- Embedding of the import loop `for _, imp := range imports`. -/
def addImportList (j : Nat) (tvIdx : Option Nat) : OState → List String → OState
  | st, [] => st
  | st, imp :: imps => addImportList j tvIdx (addImport j tvIdx st imp) imps

/-- Outcome of processing one overlay entry: proceed with the next entry
(`cont`), leave the overlay loop early (`brk`, the `break` at source line
93), or propagate a fatal error (`fatal`, the `return nil, nil, err` at
source line 90). -/
inductive FileOutcome where
  | cont (st : OState)
  | brk (st : OState)
  | fatal (st : OState)
deriving DecidableEq, Repr

/-- Embedding of the tail of the overlay-loop body shared by every way of
resolving the file to a package `j` (source lines 122-151): attach the
file, then reconcile its imports (an import-extraction error skips the
whole import step). -/
def finishFile (st : OState) (j : Nat) (tvIdx : Option Nat) (fileExists : Bool)
    (opath : String) (contents : Contents) : FileOutcome :=
  let st1 := attachFile st j opath fileExists
  match extractImports opath contents with
  | none => .cont st1
  | some imports => .cont (addImportList j tvIdx st1 imports)

/-- Embedding of one iteration of the overlay loop of
`processGolistOverlay` (source lines 36-152).  `roots` models the Root
Directory Map of the session (`none` = the fatal error of establishing
it); registering a synthesized package in the response (the repository
helper `addPackage`, outside the excerpt) is modelled from the spec as
appending it to the working response set. -/
def processOneFile (roots : Option (List (String × String))) (opath : String)
    (contents : Contents) (st : OState) : FileOutcome :=
  let base := filepathBase opath
  let dir := filepathDir opath
  let isTestFile := strEndsWith opath "_test.go"
  match extractPackageName opath contents with
  | none => .cont st
  | some pkgName =>
    match scanPackages st.pkgs dir base isTestFile pkgName 0 st.pkgs (none, none, false) with
    | (some j, tvIdx, fileExists) => finishFile st j tvIdx fileExists opath contents
    | (none, tvIdx, fileExists) =>
      match roots with
      | none => .fatal st
      | some rs =>
        match getPkgPath rs dir with
        | none => .brk st
        | some pkgPath0 =>
          let isXTest := strEndsWith pkgName "_test"
          let pkgPath := if isXTest then pkgPath0 ++ "_test" else pkgPath0
          let id :=
            if isTestFile && !isXTest then pkgPath ++ " [" ++ pkgPath ++ ".test]"
            else pkgPath
          match reclaimLoop id opath contents st.pkgs with
          | some (j, pkgs') =>
            finishFile { st with pkgs := pkgs' } j tvIdx fileExists opath contents
          | none =>
            let newPkg : Package :=
              { ID := id, PkgPath := pkgPath, Name := pkgName,
                GoFiles := [], CompiledGoFiles := [], OtherFiles := [],
                ExportFile := "", Imports := [], Errors := [] }
            let newPkg :=
              if isTestFile && !isXTest then
                match tvIdx with
                | some t =>
                  { newPkg with GoFiles := (pkgAt st.pkgs t).GoFiles,
                                CompiledGoFiles := (pkgAt st.pkgs t).CompiledGoFiles }
                | none => newPkg
              else newPkg
            let j := st.pkgs.length
            let st' := { st with pkgs := st.pkgs ++ [newPkg],
                                 havePkgs := mapSet st.havePkgs pkgPath id }
            finishFile st' j tvIdx fileExists opath contents

/-- Outcome of the whole overlay loop. -/
inductive RunOutcome where
  | ok (st : OState)
  | fatal (st : OState)
deriving DecidableEq, Repr

/-- Embedding of the overlay loop `for opath, contents := range
state.cfg.Overlay`; the Go map is rendered as the list of its entries. -/
def processFiles (roots : Option (List (String × String))) :
    List (String × Contents) → OState → RunOutcome
  | [], st => .ok st
  | (opath, contents) :: rest, st =>
    match processOneFile roots opath contents st with
    | .cont st' => processFiles roots rest st'
    | .brk st' => .ok st'
    | .fatal st' => .fatal st'

/-- Embedding of the local `toPkgPath` (source lines 157-164): the text
before the first space of an identifier, the whole identifier when it has
none. -/
def toPkgPath (id : String) : String := (splitChar ' ' id).headD id

/-- Embedding of the needed-package scan (source lines 168-175): walk
every import edge of every response package and collect, without
duplicates, each target path absent from `havePkgs`. -/
def computeNeed (pkgs : List Package) (havePkgs : List (String × String)) : List String :=
  pkgs.foldl (fun acc pkg =>
    pkg.Imports.foldl (fun acc e =>
      if (mapLookup havePkgs (toPkgPath e.2)).isNone then insertSet acc (toPkgPath e.2)
      else acc) acc) []

/-- The initial loop state of `processGolistOverlay` (source lines
19-27): `havePkgs` maps each package path of the response to its
identifier. -/
def initState (pkgs0 : List Package) : OState :=
  { pkgs := pkgs0,
    havePkgs := pkgs0.foldl (fun m pkg => mapSet m pkg.PkgPath pkg.ID) [],
    modified := [],
    addsImports := false }

/-- Result of `processGolistOverlay`: the modified-identifier list, the
needed-package list (`none` renders the nil slice returned when
`overlayAddsImports` never became true), and the response packages, by
side effect in the source.  `err` is the fatal return at source line 90,
which leaves the response mutated so far in place. -/
inductive OverlayResult where
  | ok (modifiedPkgs : List String) (needPkgs : Option (List String)) (pkgs : List Package)
  | err (pkgs : List Package)
deriving DecidableEq, Repr

/-- Embedding of `processGolistOverlay`. -/
def processGolistOverlay (roots : Option (List (String × String)))
    (overlay : List (String × Contents)) (pkgs0 : List Package) : OverlayResult :=
  match processFiles roots overlay (initState pkgs0) with
  | .fatal st => .err st.pkgs
  | .ok st =>
    let needPkgs := if st.addsImports then some (computeNeed st.pkgs st.havePkgs) else none
    .ok st.modified needPkgs st.pkgs

/-- The response packages of either outcome. -/
def resultPkgs : OverlayResult → List Package
  | .ok _ _ pkgs => pkgs
  | .err pkgs => pkgs

/-- The state carried by either file outcome. -/
def outState : FileOutcome → OState
  | .cont st => st
  | .brk st => st
  | .fatal st => st

/-- The state carried by either run outcome. -/
def runState : RunOutcome → OState
  | .ok st => st
  | .fatal st => st

end Overlay

namespace Overlay

/-! ### Basic lemmas about the container helpers -/

theorem updateAt_length (pkgs : List Package) (j : Nat) (f : Package → Package) :
    (updateAt pkgs j f).length = pkgs.length := by
  induction pkgs generalizing j with
  | nil => rfl
  | cons p ps ih =>
    cases j with
    | zero => rfl
    | succ n => simp [updateAt, ih]

theorem pkgAt_updateAt (pkgs : List Package) (j : Nat) (f : Package → Package) (k : Nat) :
    pkgAt (updateAt pkgs j f) k =
      if k = j ∧ j < pkgs.length then f (pkgAt pkgs j) else pkgAt pkgs k := by
  simp only [pkgAt]
  induction pkgs generalizing j k with
  | nil => simp [updateAt]
  | cons p ps ih =>
    cases j with
    | zero =>
      cases k with
      | zero => simp [updateAt]
      | succ m => simp [updateAt]
    | succ n =>
      cases k with
      | zero => simp [updateAt]
      | succ m =>
        simp only [updateAt, List.getD_cons_succ]
        rw [ih]
        have hiff : (m = n ∧ n < ps.length) ↔ (m + 1 = n + 1 ∧ n + 1 < (p :: ps).length) := by
          simp only [List.length_cons]
          omega
        by_cases hc : m = n ∧ n < ps.length
        · rw [if_pos hc, if_pos (hiff.mp hc)]
        · rw [if_neg hc, if_neg (fun h => hc (hiff.mpr h))]

theorem mem_insertSet (s : List String) (x y : String) :
    y ∈ insertSet s x ↔ y ∈ s ∨ y = x := by
  by_cases h : x ∈ s
  · simp only [insertSet, if_pos h]
    constructor
    · exact Or.inl
    · rintro (hy | rfl)
      · exact hy
      · exact h
  · simp [insertSet, if_neg h]

theorem self_mem_insertSet (s : List String) (x : String) : x ∈ insertSet s x := by
  rw [mem_insertSet]; exact Or.inr rfl

theorem insertSet_nodup (s : List String) (x : String) (h : s.Nodup) :
    (insertSet s x).Nodup := by
  by_cases hc : x ∈ s
  · simpa [insertSet, if_pos hc] using h
  · simp only [insertSet, if_neg hc]
    simpa [List.nodup_append] using ⟨h, hc⟩

theorem attachFile_false (st : OState) (j : Nat) (opath : String) :
    attachFile st j opath false =
      { st with
        pkgs := updateAt st.pkgs j (fun p =>
          { p with GoFiles := p.GoFiles ++ [opath],
                   CompiledGoFiles := p.CompiledGoFiles ++ [opath] }),
        modified := insertSet st.modified (pkgAt st.pkgs j).ID } := rfl

theorem attachFile_true (st : OState) (j : Nat) (opath : String) :
    attachFile st j opath true = st := rfl

/-! ### Fixtures used by the concrete instances below -/

/-- A production package `pkg/a` with one source file, as the external
lister would report it. -/
def fixA : Package :=
  { ID := "pkg/a", PkgPath := "pkg/a", Name := "a",
    GoFiles := ["/w/pkg/a/a.go"], CompiledGoFiles := ["/w/pkg/a/a.go"],
    OtherFiles := [], ExportFile := "", Imports := [], Errors := [] }

/-- `fixA` after the overlay file `/w/pkg/a/b.go` has been attached. -/
def fixAB : Package :=
  { ID := "pkg/a", PkgPath := "pkg/a", Name := "a",
    GoFiles := ["/w/pkg/a/a.go", "/w/pkg/a/b.go"],
    CompiledGoFiles := ["/w/pkg/a/a.go", "/w/pkg/a/b.go"],
    OtherFiles := [], ExportFile := "", Imports := [], Errors := [] }

/-! ### C1 -/

/-- Claim C1 (code bug): when the Root Directory Map covers no root for an
overlay file, the source executes `break` (line 93) rather than
`continue`, so reconciliation abandons every remaining overlay file, not
just the uncovered one.  Concretely: with the uncovered file `/u/x.go`
listed before `/w/pkg/a/b.go`, the second file is never attached and the
modified set stays empty, while the same run without the uncovered file
attaches it and marks `pkg/a` modified. -/
theorem claim1_uncovered_root_break_stops_overlay_loop :
    processGolistOverlay (some [("/w", "")])
      [("/u/x.go", ⟨some "x", some []⟩), ("/w/pkg/a/b.go", ⟨some "a", some []⟩)]
      [fixA] = .ok [] none [fixA] ∧
    processGolistOverlay (some [("/w", "")])
      [("/w/pkg/a/b.go", ⟨some "a", some []⟩)] [fixA] = .ok ["pkg/a"] none [fixAB] := by
  constructor <;> decide

/-! ### C2 -/

/-- Claim C2, counterexample: an overlay file whose package clause parses
but whose import list is malformed (import oracle `none`) IS appended to
the matched package file lists, and its identifier IS added to the
modified set — the attach step (lines 122-128) runs before the import
extraction (line 129), whose error only skips the import step. -/
theorem claim2_counterexample :
    processGolistOverlay (some [("/w", "")])
      [("/w/pkg/a/b.go", ⟨some "a", none⟩)] [fixA] = .ok ["pkg/a"] none [fixAB] := by
  decide

/-- Claim C2 (amended): for every overlay file whose package clause parses
and that resolves to an existing package, a malformed import list only
skips the import-reconciliation step — no import entry is added to any
package, the new-imports flag is untouched, and no error surfaces — while
the file is still appended to the resolved package file lists and its
identifier still enters the modified set when no file of the same base
name was present. -/
theorem claim2_amended (roots : Option (List (String × String))) (opath : String)
    (c : Contents) (st : OState) (nm : String) (j : Nat) (tv : Option Nat) (fe : Bool)
    (hname : c.pkgName = some nm)
    (hscan : scanPackages st.pkgs (filepathDir opath) (filepathBase opath)
        (strEndsWith opath "_test.go") nm 0 st.pkgs (none, none, false) = (some j, tv, fe))
    (himp : c.importList = none)
    (hj : j < st.pkgs.length) :
    processOneFile roots opath c st = .cont (attachFile st j opath fe) ∧
    (attachFile st j opath fe).addsImports = st.addsImports ∧
    (∀ k, (pkgAt (attachFile st j opath fe).pkgs k).Imports = (pkgAt st.pkgs k).Imports) ∧
    (fe = false →
      (pkgAt (attachFile st j opath fe).pkgs j).GoFiles
        = (pkgAt st.pkgs j).GoFiles ++ [opath] ∧
      (pkgAt (attachFile st j opath fe).pkgs j).CompiledGoFiles
        = (pkgAt st.pkgs j).CompiledGoFiles ++ [opath] ∧
      (pkgAt st.pkgs j).ID ∈ (attachFile st j opath fe).modified) := by
  refine ⟨?_, ?_, ?_, ?_⟩
  · simp only [processOneFile, extractPackageName, hname, hscan, finishFile,
      extractImports, himp]
  · cases fe
    · rw [attachFile_false]
    · rw [attachFile_true]
  · intro k
    cases fe
    · rw [attachFile_false]
      show (pkgAt (updateAt st.pkgs j _) k).Imports = (pkgAt st.pkgs k).Imports
      rw [pkgAt_updateAt]
      by_cases hc : k = j ∧ j < st.pkgs.length
      · rw [if_pos hc]
        rcases hc with ⟨rfl, _⟩
        rfl
      · rw [if_neg hc]
    · rw [attachFile_true]
  · intro hfe
    subst hfe
    rw [attachFile_false]
    refine ⟨?_, ?_, ?_⟩
    · show (pkgAt (updateAt st.pkgs j _) j).GoFiles = _
      rw [pkgAt_updateAt, if_pos ⟨rfl, hj⟩]
    · show (pkgAt (updateAt st.pkgs j _) j).CompiledGoFiles = _
      rw [pkgAt_updateAt, if_pos ⟨rfl, hj⟩]
    · exact self_mem_insertSet _ _

/-- Witness for C2 (amended) at the concrete scenario of the
counterexample. -/
theorem claim2_witness :
    processOneFile (some [("/w", "")]) "/w/pkg/a/b.go" ⟨some "a", none⟩
      (initState [fixA]) =
      .cont (attachFile (initState [fixA]) 0 "/w/pkg/a/b.go" false) ∧
    (pkgAt (attachFile (initState [fixA]) 0 "/w/pkg/a/b.go" false).pkgs 0).GoFiles
      = (pkgAt (initState [fixA]).pkgs 0).GoFiles ++ ["/w/pkg/a/b.go"] :=
  ⟨(claim2_amended (some [("/w", "")]) "/w/pkg/a/b.go" ⟨some "a", none⟩
      (initState [fixA]) "a" 0 none false rfl (by decide) rfl (by decide)).1,
   (((claim2_amended (some [("/w", "")]) "/w/pkg/a/b.go" ⟨some "a", none⟩
      (initState [fixA]) "a" 0 none false rfl (by decide) rfl (by decide)).2.2.2) rfl).1⟩

end Overlay

namespace Overlay

/-! ### C3 -/

theorem determineRootDirsModulesAux_total (abs : String → String) (mods : List JsonMod)
    (acc : List (String × String)) :
    determineRootDirsModulesAux (fun s => some (abs s)) mods acc =
      some ((mods.filter (fun m => (m.Dir != "") && (m.Path != ""))).foldl
        (fun a m => mapSet a (abs m.Dir) m.Path) acc) := by
  induction mods generalizing acc with
  | nil => rfl
  | cons mod mods ih =>
    by_cases h : ((mod.Dir != "") && (mod.Path != "")) = true
    · simp only [determineRootDirsModulesAux, if_pos h, List.filter_cons, h, if_true,
        List.foldl_cons]
      exact ih _
    · simp only [determineRootDirsModulesAux, if_neg h, List.filter_cons, h, if_false,
        Bool.false_eq_true]
      exact ih _

/-- Claim C3, counterexample: a module entry that has a path but lacks a
directory is NOT added to the root directory map (the source requires
`mod.Dir != "" && mod.Path != ""`, so lacking either one skips the entry),
contradicting the claim that every entry having at least one of the two is
added. -/
theorem claim3_counterexample :
    determineRootDirsModules (fun s => some s) [{ Path := "m", Dir := "" }] = some [] ∧
    ({ Path := "m", Dir := "" } : JsonMod).Path ≠ "" := by
  constructor <;> decide

/-- Claim C3 (amended): in module mode, for every module entry enumerated
from the external lister, the entry is skipped exactly when it lacks a
path OR lacks a directory; every entry having BOTH is added to the map
from the module absolute directory to its module path (shown here for a
run in which `filepath.Abs` never fails: the result is the fold of the map
insertions over precisely the entries having both fields non-empty). -/
theorem claim3_amended (abs : String → String) (mods : List JsonMod) :
    determineRootDirsModules (fun s => some (abs s)) mods =
      some ((mods.filter (fun m => (m.Dir != "") && (m.Path != ""))).foldl
        (fun a m => mapSet a (abs m.Dir) m.Path) []) :=
  determineRootDirsModulesAux_total abs mods []

/-! ### C4 -/

/-- Claim C4 (confirmed): reclamation fires exactly when the candidate
identifier matches the target, it carries exactly one recorded error, it
has no name, no export artifact, no source files of any kind (regular,
compiled, or other), no imports, and the overlay content package clause
parses.  In particular it never fires on a candidate with more than one
error or with any non-empty file list or import map, even when the
identifier matches. -/
theorem claim4_reclaim_fires_exactly_for_placeholders (pkg : Package) (id fn : String)
    (c : Contents) :
    (reclaimPackage pkg id fn c).1 = true ↔
      (pkg.ID = id ∧ pkg.Errors.length = 1 ∧ pkg.Name = "" ∧ pkg.ExportFile = "" ∧
       pkg.GoFiles = [] ∧ pkg.CompiledGoFiles = [] ∧ pkg.OtherFiles = [] ∧
       pkg.Imports = [] ∧ (extractPackageName fn c).isSome = true) := by
  unfold reclaimPackage
  split_ifs with h1 h2 h3 h4 h5
  · simp only [Bool.false_eq_true, false_iff]
    rintro ⟨hA, -, -, -, -, -, -, -, -⟩
    exact h1 hA
  · simp only [Bool.false_eq_true, false_iff]
    rintro ⟨-, hB, -, -, -, -, -, -, -⟩
    exact h2 hB
  · simp only [Bool.false_eq_true, false_iff]
    rintro ⟨-, -, hC, hD, -, -, -, -, -⟩
    rcases h3 with h | h
    · exact h hC
    · exact h hD
  · simp only [Bool.false_eq_true, false_iff]
    rintro ⟨-, -, -, -, hE, hF, hG, -, -⟩
    rcases h4 with h | h | h
    · rw [hE] at h; simp at h
    · rw [hF] at h; simp at h
    · rw [hG] at h; simp at h
  · simp only [Bool.false_eq_true, false_iff]
    rintro ⟨-, -, -, -, -, -, -, hH, -⟩
    rw [hH] at h5; simp at h5
  · cases hc : extractPackageName fn c with
    | none =>
      exact ⟨fun h => Bool.noConfusion h, fun hr => Bool.noConfusion hr.2.2.2.2.2.2.2.2⟩
    | some nm =>
      push_neg at h3 h4
      obtain ⟨h4a, h4b, h4c⟩ := h4
      refine ⟨fun _ => ⟨not_not.mp h1, not_not.mp h2, h3.1, h3.2, ?_, ?_, ?_, ?_, rfl⟩,
        fun _ => rfl⟩
      · exact List.length_eq_zero.mp (by omega)
      · exact List.length_eq_zero.mp (by omega)
      · exact List.length_eq_zero.mp (by omega)
      · exact List.length_eq_zero.mp (by simpa using h5)

/-! ### C10 -/

/-- Claim C10 (confirmed): `reclaimPackage` is atomic with respect to
failure — whenever it reports false (for any of its disqualifying
conditions) the candidate package is left entirely unchanged, and it
changes the candidate (assigning the extracted name and clearing the error
list, nothing else) exactly when it reports true. -/
theorem claim10_reclaim_is_atomic (pkg : Package) (id fn : String) (c : Contents) :
    ((reclaimPackage pkg id fn c).1 = false → (reclaimPackage pkg id fn c).2 = pkg) ∧
    ((reclaimPackage pkg id fn c).1 = true →
      ∃ nm, extractPackageName fn c = some nm ∧
        (reclaimPackage pkg id fn c).2 = { pkg with Name := nm, Errors := [] }) := by
  unfold reclaimPackage
  split_ifs with h1 h2 h3 h4 h5
  · exact ⟨fun _ => rfl, fun h => by simp at h⟩
  · exact ⟨fun _ => rfl, fun h => by simp at h⟩
  · exact ⟨fun _ => rfl, fun h => by simp at h⟩
  · exact ⟨fun _ => rfl, fun h => by simp at h⟩
  · exact ⟨fun _ => rfl, fun h => by simp at h⟩
  · cases hc : extractPackageName fn c with
    | none =>
      exact ⟨fun _ => rfl, fun h => Bool.noConfusion h⟩
    | some nm =>
      exact ⟨fun h => Bool.noConfusion h, fun _ => ⟨nm, rfl, rfl⟩⟩

/-- A placeholder-like package whose identifier does not match the target,
so that reclamation declines. -/
def fixMismatch : Package :=
  { ID := "pkg/z", PkgPath := "pkg/z", Name := "",
    GoFiles := [], CompiledGoFiles := [], OtherFiles := [], ExportFile := "",
    Imports := [], Errors := ["not found"] }

/-- Witness for C10: at a concrete mismatching identifier, reclamation
reports false and the candidate is returned unchanged. -/
theorem claim10_witness :
    (reclaimPackage fixMismatch "pkg/other" "/w/pkg/z/f.go" ⟨some "z", none⟩).1 = false ∧
    (reclaimPackage fixMismatch "pkg/other" "/w/pkg/z/f.go" ⟨some "z", none⟩).2 = fixMismatch :=
  ⟨by decide,
   (claim10_reclaim_is_atomic fixMismatch "pkg/other" "/w/pkg/z/f.go" ⟨some "z", none⟩).1
     (by decide)⟩

/-! ### C8 -/

/-- Claim C8 (confirmed): an overlay file whose package clause fails to
parse is a complete no-op for reconciliation — the per-file step returns
the state unchanged (no file list, import map, name or error of any
package is mutated, no package synthesized, no identifier marked
modified), and removing the entry from the overlay does not change the
result of the whole loop. -/
theorem claim8_unparsable_package_clause_is_no_op
    (roots : Option (List (String × String))) (pre post : List (String × Contents))
    (opath : String) (c : Contents) (st : OState)
    (h : c.pkgName = none) :
    processOneFile roots opath c st = .cont st ∧
    processFiles roots (pre ++ (opath, c) :: post) st = processFiles roots (pre ++ post) st := by
  have hone : ∀ st' : OState, processOneFile roots opath c st' = .cont st' := by
    intro st'
    simp only [processOneFile, extractPackageName, h]
  refine ⟨hone st, ?_⟩
  induction pre generalizing st with
  | nil =>
    simp only [List.nil_append, processFiles, hone]
  | cons e pre ih =>
    obtain ⟨op2, c2⟩ := e
    simp only [List.cons_append, processFiles]
    cases processOneFile roots op2 c2 st with
    | cont st2 => exact ih st2
    | brk st2 => rfl
    | fatal st2 => rfl

/-- Witness for C8 at a concrete overlay entry with an unparsable package
clause. -/
theorem claim8_witness :
    processOneFile (some [("/w", "")]) "/w/pkg/a/bad.go" ⟨none, none⟩ (initState [fixA])
      = .cont (initState [fixA]) ∧
    processFiles (some [("/w", "")])
        ([("/w/pkg/a/ok.go", (⟨some "a", some []⟩ : Contents))]
          ++ ("/w/pkg/a/bad.go", (⟨none, none⟩ : Contents)) :: []) (initState [fixA])
      = processFiles (some [("/w", "")])
        ([("/w/pkg/a/ok.go", (⟨some "a", some []⟩ : Contents))] ++ []) (initState [fixA]) :=
  ⟨(claim8_unparsable_package_clause_is_no_op (some [("/w", "")]) [] []
      "/w/pkg/a/bad.go" ⟨none, none⟩ (initState [fixA]) rfl).1,
   (claim8_unparsable_package_clause_is_no_op (some [("/w", "")])
      [("/w/pkg/a/ok.go", (⟨some "a", some []⟩ : Contents))] []
      "/w/pkg/a/bad.go" ⟨none, none⟩ (initState [fixA]) rfl).2⟩

end Overlay

namespace Overlay

/-! ### Characterization of the package-search loop -/

/-- The directory test applied to one file of a candidate package. -/
def dirHit (dir : String) (f : String) : Bool := sameFile (filepathDir f) dir

/-- The directory-and-base test that sets `fileExists`. -/
def baseHit (dir base : String) (f : String) : Bool :=
  sameFile (filepathDir f) dir && (filepathBase f == base)

/-- Once `pkg` points at the package currently being searched, the file
loop keeps `pkg` and `testVariantOf` fixed and only accumulates
`fileExists` over the directory-matching files. -/
theorem scanFiles_fix (pkgs : List Package) (i : Nat) (p : Package) (dir base : String)
    (itf : Bool) (hne : (itf && !hasTestFiles p) = false) :
    ∀ (fs : List String) (tv : Option Nat) (fe : Bool),
    scanFiles pkgs i p dir base itf fs (some i, tv, fe) =
      (some i, tv, fe || fs.any (baseHit dir base)) := by
  intro fs
  induction fs with
  | nil => intro tv fe; simp [scanFiles]
  | cons f fs ih =>
    intro tv fe
    by_cases hd : sameFile (filepathDir f) dir = true
    · simp only [scanFiles, hd, if_true, hne, Bool.false_eq_true, if_false,
        bne_self_eq_false, Bool.false_and, ih, List.any_cons, baseHit, Bool.or_assoc,
        Bool.true_and]
    · have hd' : sameFile (filepathDir f) dir = false := by
        cases hsf : sameFile (filepathDir f) dir
        · rfl
        · exact absurd hsf hd
      simp only [scanFiles, hd', Bool.false_eq_true, if_false, ih, List.any_cons, baseHit,
        hd', Bool.false_and, Bool.false_or]

/-- Full characterization of the file loop of the package search, for the
package `p` at index `i`, starting from an arbitrary loop state. -/
theorem scanFiles_char (pkgs : List Package) (i : Nat) (p : Package) (dir base : String)
    (itf : Bool) :
    ∀ (fs : List String) (pk tv : Option Nat) (fe : Bool),
    scanFiles pkgs i p dir base itf fs (pk, tv, fe) =
      if fs.any (dirHit dir) = false then (pk, tv, fe)
      else if itf && !hasTestFiles p then (pk, some i, fe)
      else if (match pk with
               | some j => (j != i) && ((pkgAt pkgs j).PkgPath == p.PkgPath)
                   && hasTestFiles (pkgAt pkgs j)
               | none => false) then (pk, some i, fe)
      else (some i,
            (match pk with
             | some j =>
               if (j != i) && ((pkgAt pkgs j).PkgPath == p.PkgPath) && hasTestFiles p then
                 some j
               else tv
             | none => tv),
            fe || fs.any (baseHit dir base)) := by
  intro fs
  induction fs with
  | nil => intro pk tv fe; simp [scanFiles]
  | cons f fs ih =>
    intro pk tv fe
    by_cases hd : sameFile (filepathDir f) dir = true
    · have hany : (f :: fs).any (dirHit dir) = true := by
        simp [List.any_cons, dirHit, hd]
      rw [hany]
      simp only [Bool.true_eq_false, if_false]
      by_cases ha : (itf && !hasTestFiles p) = true
      · simp only [scanFiles, hd, if_true, ha]
      · have ha' : (itf && !hasTestFiles p) = false := by
          cases hab : (itf && !hasTestFiles p)
          · rfl
          · exact absurd hab ha
        rw [ha']
        simp only [Bool.false_eq_true, if_false]
        cases pk with
        | none =>
          simp only [scanFiles, hd, if_true, ha', Bool.false_eq_true, if_false,
            scanFiles_fix pkgs i p dir base itf ha', List.any_cons, baseHit, hd,
            Bool.or_assoc]
          simp [baseHit]
        | some j =>
          by_cases hb : ((j != i) && ((pkgAt pkgs j).PkgPath == p.PkgPath)
              && hasTestFiles (pkgAt pkgs j)) = true
          · simp only [scanFiles, hd, if_true, ha', Bool.false_eq_true, if_false, hb]
          · have hb' : ((j != i) && ((pkgAt pkgs j).PkgPath == p.PkgPath)
                && hasTestFiles (pkgAt pkgs j)) = false := by
              cases hbb : ((j != i) && ((pkgAt pkgs j).PkgPath == p.PkgPath)
                  && hasTestFiles (pkgAt pkgs j))
              · rfl
              · exact absurd hbb hb
            simp only [scanFiles, hd, if_true, ha', Bool.false_eq_true, if_false, hb',
              scanFiles_fix pkgs i p dir base itf ha', List.any_cons, baseHit, hd,
              Bool.or_assoc]
            simp [baseHit]
    · have hd' : sameFile (filepathDir f) dir = false := by
        cases hsf : sameFile (filepathDir f) dir
        · rfl
        · exact absurd hsf hd
      have hany : (f :: fs).any (dirHit dir) = fs.any (dirHit dir) := by
        simp [List.any_cons, dirHit, hd']
      have hbase : (f :: fs).any (baseHit dir base) = fs.any (baseHit dir base) := by
        simp [List.any_cons, baseHit, hd']
      rw [hany, hbase]
      simp only [scanFiles, hd', Bool.false_eq_true, if_false]
      exact ih pk tv fe

end Overlay

namespace Overlay

/-- A package that fails the name test or has no file in the overlay
directory leaves the search state untouched. -/
theorem scanPackages_skip (pkgs : List Package) (dir base : String) (itf : Bool)
    (nm : String) :
    ∀ (rest : List Package) (i : Nat) (st : ScanSt),
    (∀ p ∈ rest, ((nm != p.Name) && (p.ID != "command-line-arguments")) = true ∨
        p.GoFiles.any (dirHit dir) = false) →
    scanPackages pkgs dir base itf nm i rest st = st := by
  intro rest
  induction rest with
  | nil => intro i st _; rfl
  | cons p ps ih =>
    intro i st h
    have hp := h p (List.mem_cons_self p ps)
    have hrest : ∀ q ∈ ps, ((nm != q.Name) && (q.ID != "command-line-arguments")) = true ∨
        q.GoFiles.any (dirHit dir) = false :=
      fun q hq => h q (List.mem_cons_of_mem p hq)
    rcases hp with hp | hp
    · simp only [scanPackages, hp, if_true]
      exact ih (i + 1) st hrest
    · by_cases hn : ((nm != p.Name) && (p.ID != "command-line-arguments")) = true
      · simp only [scanPackages, hn, if_true]
        exact ih (i + 1) st hrest
      · have hn' : ((nm != p.Name) && (p.ID != "command-line-arguments")) = false := by
          cases hb : ((nm != p.Name) && (p.ID != "command-line-arguments"))
          · rfl
          · exact absurd hb hn
        simp only [scanPackages, hn', Bool.false_eq_true, if_false]
        obtain ⟨pk, tv, fe⟩ := st
        rw [scanFiles_char, hp]
        simp only [if_true]
        exact ih (i + 1) (pk, tv, fe) hrest

/-- Splitting the package-search loop over an append of the iterated
list. -/
theorem scanPackages_append (pkgs : List Package) (dir base : String) (itf : Bool)
    (nm : String) :
    ∀ (l1 l2 : List Package) (i : Nat) (st : ScanSt),
    scanPackages pkgs dir base itf nm i (l1 ++ l2) st =
      scanPackages pkgs dir base itf nm (i + l1.length) l2
        (scanPackages pkgs dir base itf nm i l1 st) := by
  intro l1
  induction l1 with
  | nil => intro l2 i st; simp [scanPackages]
  | cons p ps ih =>
    intro l2 i st
    simp only [List.cons_append, scanPackages, List.append_eq]
    rw [ih]
    congr 1
    simp only [List.length_cons]
    omega

/-- Every member of `l.take m` is an entry of `l` at an index below `m`. -/
theorem mem_take_index (l : List Package) (m : Nat) (p : Package) (h : p ∈ l.take m) :
    ∃ k, k < m ∧ k < l.length ∧ pkgAt l k = p := by
  induction l generalizing m with
  | nil => simp at h
  | cons q l ih =>
    cases m with
    | zero => simp at h
    | succ n =>
      rcases List.mem_cons.mp h with rfl | h2
      · exact ⟨0, Nat.succ_pos n, Nat.succ_pos l.length, rfl⟩
      · obtain ⟨k, hk1, hk2, hk3⟩ := ih n h2
        exact ⟨k + 1, Nat.succ_lt_succ hk1, Nat.succ_lt_succ hk2, hk3⟩

/-- Every member of `l.drop m` is an entry of `l` at an index at least
`m`. -/
theorem mem_drop_index (l : List Package) (m : Nat) (p : Package) (h : p ∈ l.drop m) :
    ∃ k, m ≤ k ∧ k < l.length ∧ pkgAt l k = p := by
  induction l generalizing m with
  | nil => simp at h
  | cons q l ih =>
    cases m with
    | zero =>
      rcases List.mem_cons.mp h with rfl | h2
      · exact ⟨0, Nat.le_refl 0, Nat.succ_pos l.length, rfl⟩
      · obtain ⟨k, _, hk2, hk3⟩ := ih 0 h2
        exact ⟨k + 1, Nat.zero_le _, Nat.succ_lt_succ hk2, hk3⟩
    | succ n =>
      obtain ⟨k, hk1, hk2, hk3⟩ := ih n h
      exact ⟨k + 1, Nat.succ_le_succ hk1, Nat.succ_lt_succ hk2, hk3⟩

/-- Peeling the entry at index `t` off the dropped tail. -/
theorem drop_eq_pkgAt_cons (l : List Package) (t : Nat) (h : t < l.length) :
    l.drop t = pkgAt l t :: l.drop (t + 1) := by
  induction l generalizing t with
  | nil => simp at h
  | cons q l ih =>
    cases t with
    | zero => rfl
    | succ n =>
      simp only [List.drop_succ_cons]
      have := ih n (by simpa [Nat.succ_lt_succ_iff] using h)
      simpa [pkgAt] using this

/-- The element appended at the end of the response sits at the old
length. -/
theorem pkgAt_append_length (pkgs : List Package) (q : Package) :
    pkgAt (pkgs ++ [q]) pkgs.length = q := by
  induction pkgs with
  | nil => rfl
  | cons p ps ih => simp only [List.cons_append, List.length_cons, pkgAt,
      List.getD_cons_succ]; exact ih

/-- Reading below the old length is unchanged by appending. -/
theorem pkgAt_append_lt (pkgs : List Package) (q : Package) (k : Nat)
    (h : k < pkgs.length) :
    pkgAt (pkgs ++ [q]) k = pkgAt pkgs k := by
  induction pkgs generalizing k with
  | nil => simp at h
  | cons p ps ih =>
    cases k with
    | zero => rfl
    | succ n =>
      have := ih n (by simpa [Nat.succ_lt_succ_iff] using h)
      simpa [pkgAt] using this

/-- When no response package bears the target identifier, the
reclamation loop fails. -/
theorem reclaimLoop_of_no_id (id fn : String) (c : Contents) :
    ∀ pkgs : List Package, (∀ p ∈ pkgs, p.ID ≠ id) →
    reclaimLoop id fn c pkgs = none := by
  intro pkgs
  induction pkgs with
  | nil => intro _; rfl
  | cons p ps ih =>
    intro h
    have hp : p.ID ≠ id := h p (List.mem_cons_self p ps)
    have hfst : (reclaimPackage p id fn c).1 = false := by
      unfold reclaimPackage
      rw [if_pos hp]
    simp only [reclaimLoop, hfst, Bool.false_eq_true, if_false]
    rw [ih (fun q hq => h q (List.mem_cons_of_mem p hq))]

end Overlay

namespace Overlay

/-- Search outcome for an overlay test file whose directory matches
exactly one package, a production package with no test files: the search
finds no home package, records the production package as `testVariantOf`,
and reports that the file is not present. -/
theorem scan_test_variant (pkgs : List Package) (dir base nm : String) (t : Nat)
    (ht : t < pkgs.length)
    (hMatch : ((nm != (pkgAt pkgs t).Name)
        && ((pkgAt pkgs t).ID != "command-line-arguments")) = false)
    (hDir : (pkgAt pkgs t).GoFiles.any (dirHit dir) = true)
    (hNoTest : hasTestFiles (pkgAt pkgs t) = false)
    (hOnly : ∀ k, k < pkgs.length → k ≠ t →
      ((nm != (pkgAt pkgs k).Name)
        && ((pkgAt pkgs k).ID != "command-line-arguments")) = true ∨
      (pkgAt pkgs k).GoFiles.any (dirHit dir) = false) :
    scanPackages pkgs dir base true nm 0 pkgs (none, none, false) = (none, some t, false) := by
  have hsplit : pkgs = pkgs.take t ++ (pkgAt pkgs t :: pkgs.drop (t + 1)) := by
    conv_lhs => rw [← List.take_append_drop t pkgs]
    rw [drop_eq_pkgAt_cons pkgs t ht]
  nth_rewrite 2 [hsplit]
  rw [scanPackages_append]
  have hskip1 : scanPackages pkgs dir base true nm 0 (pkgs.take t) (none, none, false)
      = (none, none, false) := by
    apply scanPackages_skip
    intro p hp
    obtain ⟨k, hk1, hk2, hk3⟩ := mem_take_index pkgs t p hp
    rw [← hk3]
    exact hOnly k hk2 (Nat.ne_of_lt hk1)
  rw [hskip1]
  have hlen : 0 + (pkgs.take t).length = t := by
    rw [List.length_take]
    omega
  rw [hlen]
  simp only [scanPackages, hMatch, Bool.false_eq_true, if_false]
  rw [scanFiles_char, hDir]
  simp only [Bool.true_eq_false, if_false, hNoTest, Bool.not_false, Bool.and_self, if_true]
  apply scanPackages_skip
  intro p hp
  obtain ⟨k, hk1, hk2, hk3⟩ := mem_drop_index pkgs (t + 1) p hp
  rw [← hk3]
  exact hOnly k hk2 (by omega)

/-- Two packages agreeing on every field except possibly the import
map. -/
def samePkgSkeleton (a b : Package) : Prop :=
  a.ID = b.ID ∧ a.PkgPath = b.PkgPath ∧ a.Name = b.Name ∧
  a.GoFiles = b.GoFiles ∧ a.CompiledGoFiles = b.CompiledGoFiles ∧ a.Errors = b.Errors

theorem samePkgSkeleton_refl (a : Package) : samePkgSkeleton a a :=
  ⟨rfl, rfl, rfl, rfl, rfl, rfl⟩

theorem samePkgSkeleton_trans {a b c : Package}
    (h1 : samePkgSkeleton a b) (h2 : samePkgSkeleton b c) : samePkgSkeleton a c :=
  ⟨h1.1.trans h2.1, h1.2.1.trans h2.2.1, h1.2.2.1.trans h2.2.2.1,
   h1.2.2.2.1.trans h2.2.2.2.1, h1.2.2.2.2.1.trans h2.2.2.2.2.1,
   h1.2.2.2.2.2.trans h2.2.2.2.2.2⟩

/-- An update touching only the import map preserves the skeleton of
every slot of the response. -/
theorem updateAt_imports_skeleton (pkgs : List Package) (j : Nat)
    (g : Package → List (String × String)) (k : Nat) :
    samePkgSkeleton
      (pkgAt (updateAt pkgs j (fun p => { p with Imports := g p })) k)
      (pkgAt pkgs k) := by
  rw [pkgAt_updateAt]
  split_ifs with h
  · obtain ⟨rfl, -⟩ := h
    exact ⟨rfl, rfl, rfl, rfl, rfl, rfl⟩
  · exact samePkgSkeleton_refl _

/-- One step of the import loop changes neither the number of response
packages, nor the modified set, nor any field of any package other than
its import map. -/
theorem addImport_skeleton (j : Nat) (tvIdx : Option Nat) (st : OState) (imp : String) :
    (addImport j tvIdx st imp).pkgs.length = st.pkgs.length ∧
    (addImport j tvIdx st imp).modified = st.modified ∧
    ∀ k, samePkgSkeleton (pkgAt (addImport j tvIdx st imp).pkgs k) (pkgAt st.pkgs k) := by
  cases hany : ((pkgAt st.pkgs j).Imports.any (fun e => e.1 == imp)) with
  | true =>
    have heq : addImport j tvIdx st imp = st := by
      unfold addImport
      rw [if_pos hany]
    rw [heq]
    exact ⟨rfl, rfl, fun k => samePkgSkeleton_refl _⟩
  | false =>
    have hne : ¬(((pkgAt st.pkgs j).Imports.any (fun e => e.1 == imp)) = true) := by
      simp [hany]
    cases tvIdx with
    | none =>
      have heq : addImport j none st imp =
          { st with
            pkgs := updateAt st.pkgs j (fun p =>
              { p with Imports :=
                  mapSet p.Imports imp ((mapLookup st.havePkgs imp).getD imp) }),
            addsImports := true } := by
        unfold addImport
        rw [if_neg hne]
      rw [heq]
      exact ⟨updateAt_length _ _ _, rfl, fun k => updateAt_imports_skeleton _ _ _ _⟩
    | some t =>
      have heq : addImport j (some t) st imp =
          { st with
            pkgs := updateAt
              (updateAt st.pkgs j (fun p =>
                { p with Imports :=
                    mapSet p.Imports imp ((mapLookup st.havePkgs imp).getD imp) }))
              t (fun p =>
                { p with Imports :=
                    mapSet p.Imports imp ((mapLookup st.havePkgs imp).getD imp) }),
            addsImports := true } := by
        unfold addImport
        rw [if_neg hne]
      rw [heq]
      refine ⟨?_, rfl, fun k => ?_⟩
      · rw [updateAt_length, updateAt_length]
      · exact samePkgSkeleton_trans (updateAt_imports_skeleton _ _ _ _)
          (updateAt_imports_skeleton _ _ _ _)

/-- The whole import loop preserves length, modified set, and the
skeleton of every slot. -/
theorem addImportList_skeleton (j : Nat) (tvIdx : Option Nat) :
    ∀ (imps : List String) (st : OState),
    (addImportList j tvIdx st imps).pkgs.length = st.pkgs.length ∧
    (addImportList j tvIdx st imps).modified = st.modified ∧
    ∀ k, samePkgSkeleton (pkgAt (addImportList j tvIdx st imps).pkgs k) (pkgAt st.pkgs k) := by
  intro imps
  induction imps with
  | nil => intro st; exact ⟨rfl, rfl, fun k => samePkgSkeleton_refl _⟩
  | cons imp imps ih =>
    intro st
    obtain ⟨hl1, hm1, hs1⟩ := addImport_skeleton j tvIdx st imp
    obtain ⟨hl2, hm2, hs2⟩ := ih (addImport j tvIdx st imp)
    exact ⟨by rw [show addImportList j tvIdx st (imp :: imps)
        = addImportList j tvIdx (addImport j tvIdx st imp) imps from rfl, hl2, hl1],
      by rw [show addImportList j tvIdx st (imp :: imps)
        = addImportList j tvIdx (addImport j tvIdx st imp) imps from rfl, hm2, hm1],
      fun k => samePkgSkeleton_trans (hs2 k) (hs1 k)⟩

end Overlay

namespace Overlay

/-- Attaching a fresh overlay file to a package just appended at the end
of the response: the file lands in both file lists of the new package and
its identifier enters the modified set. -/
theorem attach_appended_facts (st st1 : OState) (q : Package) (opath : String)
    (hp : List (String × String))
    (hst1 : st1 = attachFile { st with pkgs := st.pkgs ++ [q], havePkgs := hp }
      st.pkgs.length opath false) :
    st1.pkgs.length = st.pkgs.length + 1 ∧
    (pkgAt st1.pkgs st.pkgs.length).ID = q.ID ∧
    (pkgAt st1.pkgs st.pkgs.length).GoFiles = q.GoFiles ++ [opath] ∧
    (pkgAt st1.pkgs st.pkgs.length).CompiledGoFiles = q.CompiledGoFiles ++ [opath] ∧
    st1.modified = insertSet st.modified q.ID := by
  subst hst1
  rw [attachFile_false]
  have hlt : st.pkgs.length < (st.pkgs ++ [q]).length := by
    simp [List.length_append]
  refine ⟨?_, ?_, ?_, ?_, ?_⟩
  · show (updateAt (st.pkgs ++ [q]) st.pkgs.length _).length = st.pkgs.length + 1
    rw [updateAt_length]
    simp [List.length_append]
  · show (pkgAt (updateAt (st.pkgs ++ [q]) st.pkgs.length _) st.pkgs.length).ID = q.ID
    rw [pkgAt_updateAt, if_pos ⟨rfl, hlt⟩, pkgAt_append_length]
  · show (pkgAt (updateAt (st.pkgs ++ [q]) st.pkgs.length _) st.pkgs.length).GoFiles
      = q.GoFiles ++ [opath]
    rw [pkgAt_updateAt, if_pos ⟨rfl, hlt⟩, pkgAt_append_length]
  · show (pkgAt (updateAt (st.pkgs ++ [q]) st.pkgs.length _) st.pkgs.length).CompiledGoFiles
      = q.CompiledGoFiles ++ [opath]
    rw [pkgAt_updateAt, if_pos ⟨rfl, hlt⟩, pkgAt_append_length]
  · show insertSet st.modified (pkgAt (st.pkgs ++ [q]) st.pkgs.length).ID
      = insertSet st.modified q.ID
    rw [pkgAt_append_length]

/-- The shared tail of the overlay-loop body, applied to a package just
appended at the end of the response with the overlay file not yet
present: whatever the import oracle says, the file is attached and the new
package keeps its identity. -/
theorem finishFile_appended_facts (st : OState) (q : Package) (opath : String)
    (hp : List (String × String)) (tv : Option Nat) (c : Contents) :
    ∃ st', finishFile { st with pkgs := st.pkgs ++ [q], havePkgs := hp }
        st.pkgs.length tv false opath c = .cont st' ∧
      st'.pkgs.length = st.pkgs.length + 1 ∧
      (pkgAt st'.pkgs st.pkgs.length).ID = q.ID ∧
      (pkgAt st'.pkgs st.pkgs.length).GoFiles = q.GoFiles ++ [opath] ∧
      (pkgAt st'.pkgs st.pkgs.length).CompiledGoFiles = q.CompiledGoFiles ++ [opath] ∧
      q.ID ∈ st'.modified := by
  obtain ⟨hL, hID, hGo, hCo, hMod⟩ := attach_appended_facts st _ q opath hp rfl
  simp only [finishFile, extractImports]
  cases c.importList with
  | none =>
    exact ⟨_, rfl, hL, hID, hGo, hCo, by rw [hMod]; exact self_mem_insertSet _ _⟩
  | some imports =>
    obtain ⟨hl2, hm2, hs2⟩ := addImportList_skeleton st.pkgs.length tv imports
      (attachFile { st with pkgs := st.pkgs ++ [q], havePkgs := hp }
        st.pkgs.length opath false)
    refine ⟨_, rfl, ?_, ?_, ?_, ?_, ?_⟩
    · rw [hl2]; exact hL
    · exact ((hs2 st.pkgs.length).1).trans hID
    · exact ((hs2 st.pkgs.length).2.2.2.1).trans hGo
    · exact ((hs2 st.pkgs.length).2.2.2.2.1).trans hCo
    · rw [hm2, hMod]; exact self_mem_insertSet _ _

/-! ### C5 -/

/-- Claim C5 (confirmed): for an overlay test file (path ending in
`_test.go`, declared name not ending in `_test`) whose directory matches
exactly one already-loaded package — a production package with no test
files — and when no already-loaded package bears the target test-variant
identifier (so reclamation, which the algorithm tries first, declines),
reconciliation creates a new package whose identifier is
`<path> [<path>.test]` and whose regular and compiled file lists are the
production package file lists with the overlay file appended; the new
identifier enters the modified set. -/
theorem claim5_test_variant_package_synthesis
    (rs : List (String × String)) (opath : String) (c : Contents) (st : OState)
    (nm pp : String) (t : Nat)
    (hname : c.pkgName = some nm)
    (hT : strEndsWith opath "_test.go" = true)
    (hX : strEndsWith nm "_test" = false)
    (ht : t < st.pkgs.length)
    (hMatch : ((nm != (pkgAt st.pkgs t).Name)
        && ((pkgAt st.pkgs t).ID != "command-line-arguments")) = false)
    (hDir : (pkgAt st.pkgs t).GoFiles.any (dirHit (filepathDir opath)) = true)
    (hNoTest : hasTestFiles (pkgAt st.pkgs t) = false)
    (hOnly : ∀ k, k < st.pkgs.length → k ≠ t →
      ((nm != (pkgAt st.pkgs k).Name)
        && ((pkgAt st.pkgs k).ID != "command-line-arguments")) = true ∨
      (pkgAt st.pkgs k).GoFiles.any (dirHit (filepathDir opath)) = false)
    (hPP : getPkgPath rs (filepathDir opath) = some pp)
    (hNoId : ∀ p ∈ st.pkgs, p.ID ≠ pp ++ " [" ++ pp ++ ".test]") :
    ∃ st', processOneFile (some rs) opath c st = .cont st' ∧
      st'.pkgs.length = st.pkgs.length + 1 ∧
      (pkgAt st'.pkgs st.pkgs.length).ID = pp ++ " [" ++ pp ++ ".test]" ∧
      (pkgAt st'.pkgs st.pkgs.length).GoFiles = (pkgAt st.pkgs t).GoFiles ++ [opath] ∧
      (pkgAt st'.pkgs st.pkgs.length).CompiledGoFiles
        = (pkgAt st.pkgs t).CompiledGoFiles ++ [opath] ∧
      (pp ++ " [" ++ pp ++ ".test]") ∈ st'.modified := by
  have hscan := scan_test_variant st.pkgs (filepathDir opath) (filepathBase opath)
    nm t ht hMatch hDir hNoTest hOnly
  have hrl : reclaimLoop (pp ++ " [" ++ pp ++ ".test]") opath c st.pkgs = none :=
    reclaimLoop_of_no_id _ _ _ st.pkgs hNoId
  have heq : processOneFile (some rs) opath c st =
      finishFile
        { st with
          pkgs := st.pkgs ++
            [{ ID := pp ++ " [" ++ pp ++ ".test]", PkgPath := pp, Name := nm,
               GoFiles := (pkgAt st.pkgs t).GoFiles,
               CompiledGoFiles := (pkgAt st.pkgs t).CompiledGoFiles,
               OtherFiles := [], ExportFile := "", Imports := [], Errors := [] }],
          havePkgs := mapSet st.havePkgs pp (pp ++ " [" ++ pp ++ ".test]") }
        st.pkgs.length (some t) false opath c := by
    simp only [processOneFile, extractPackageName, hname, hT, hscan, hX, hPP, hrl,
      Bool.not_false, Bool.true_and, Bool.and_self, Bool.false_eq_true,
      eq_self_iff_true, if_true, if_false]
  rw [heq]
  exact finishFile_appended_facts st
    { ID := pp ++ " [" ++ pp ++ ".test]", PkgPath := pp, Name := nm,
      GoFiles := (pkgAt st.pkgs t).GoFiles,
      CompiledGoFiles := (pkgAt st.pkgs t).CompiledGoFiles,
      OtherFiles := [], ExportFile := "", Imports := [], Errors := [] }
    opath (mapSet st.havePkgs pp (pp ++ " [" ++ pp ++ ".test]")) (some t) c

end Overlay

namespace Overlay

/-- A production package `pkg/b` with one non-test source file. -/
def fixB : Package :=
  { ID := "pkg/b", PkgPath := "pkg/b", Name := "b",
    GoFiles := ["/w/pkg/b/b.go"], CompiledGoFiles := ["/w/pkg/b/b.go"],
    OtherFiles := [], ExportFile := "", Imports := [], Errors := [] }

/-- The test-variant package reconciliation synthesizes for the overlay
file `/w/pkg/b/x_test.go`. -/
def fixBTest : Package :=
  { ID := "pkg/b [pkg/b.test]", PkgPath := "pkg/b", Name := "b",
    GoFiles := ["/w/pkg/b/b.go", "/w/pkg/b/x_test.go"],
    CompiledGoFiles := ["/w/pkg/b/b.go", "/w/pkg/b/x_test.go"],
    OtherFiles := [], ExportFile := "", Imports := [], Errors := [] }

/-- The loop state after reconciling that single test file. -/
def stB5 : OState :=
  { pkgs := [fixB, fixBTest],
    havePkgs := [("pkg/b", "pkg/b [pkg/b.test]")],
    modified := ["pkg/b [pkg/b.test]"],
    addsImports := false }

/-- Witness for C5 at the concrete scenario of the spec: overlay adds
`pkg/b/x_test.go` (package `b`) to a directory holding only the non-test
files of `pkg/b`. -/
theorem claim5_witness :
    processOneFile (some [("/w", "")]) "/w/pkg/b/x_test.go" ⟨some "b", some []⟩
      (initState [fixB]) = .cont stB5 ∧
    (pkgAt stB5.pkgs 1).ID = "pkg/b" ++ " [" ++ "pkg/b" ++ ".test]" ∧
    (pkgAt stB5.pkgs 1).GoFiles
      = (pkgAt (initState [fixB]).pkgs 0).GoFiles ++ ["/w/pkg/b/x_test.go"] ∧
    ("pkg/b" ++ " [" ++ "pkg/b" ++ ".test]") ∈ stB5.modified := by
  obtain ⟨st', h1, h2, h3, h4, h5, h6⟩ :=
    claim5_test_variant_package_synthesis [("/w", "")] "/w/pkg/b/x_test.go"
      ⟨some "b", some []⟩ (initState [fixB]) "b" "pkg/b" 0 rfl (by decide) (by decide)
      (by decide) (by decide) (by decide) (by decide)
      (by intro k hk hk0; have hk' : k < 1 := hk; exact absurd (by omega : k = 0) hk0)
      (by decide) (by decide)
  have hst : st' = stB5 := by
    have hconc : processOneFile (some [("/w", "")]) "/w/pkg/b/x_test.go"
        ⟨some "b", some []⟩ (initState [fixB]) = .cont stB5 := by decide
    exact FileOutcome.cont.inj (h1.symm.trans hconc)
  subst hst
  exact ⟨h1, h3, h4, h6⟩

end Overlay

namespace Overlay

/-- Once the search has a candidate package, it never loses it. -/
theorem scan_pk_mono (pkgs : List Package) (dir base : String) (itf : Bool) (nm : String) :
    ∀ (rest : List Package) (i : Nat) (pk tv : Option Nat) (fe : Bool) (j : Nat),
    pk = some j →
    ∃ j', (scanPackages pkgs dir base itf nm i rest (pk, tv, fe)).1 = some j' := by
  intro rest
  induction rest with
  | nil =>
    intro i pk tv fe j hj
    exact ⟨j, by simp [scanPackages, hj]⟩
  | cons p ps ih =>
    intro i pk tv fe j hj
    subst hj
    simp only [scanPackages]
    by_cases hn : ((nm != p.Name) && (p.ID != "command-line-arguments")) = true
    · rw [if_pos hn]
      exact ih (i + 1) (some j) tv fe j rfl
    · rw [if_neg hn, scanFiles_char]
      split_ifs with h1 h2 h3
      · exact ih (i + 1) (some j) tv fe j rfl
      · exact ih (i + 1) (some j) (some i) fe j rfl
      · exact ih (i + 1) (some j) (some i) fe j rfl
      · exact ih (i + 1) (some i) _ _ i rfl

/-- Invariant of the search: if the candidate package contains the overlay
file itself, `fileExists` has been set. -/
theorem scan_mem_fileExists (pkgs : List Package) (dir base : String) (itf : Bool)
    (nm opath : String)
    (hdir : sameFile (filepathDir opath) dir = true)
    (hbase : (filepathBase opath == base) = true) :
    ∀ (rest : List Package) (i : Nat) (st : ScanSt),
    (∀ k, k < rest.length → rest.getD k default = pkgAt pkgs (i + k)) →
    (∀ j, st.1 = some j → opath ∈ (pkgAt pkgs j).GoFiles → st.2.2 = true) →
    ∀ j, (scanPackages pkgs dir base itf nm i rest st).1 = some j →
      opath ∈ (pkgAt pkgs j).GoFiles →
      (scanPackages pkgs dir base itf nm i rest st).2.2 = true := by
  intro rest
  induction rest with
  | nil =>
    intro i st _ hR j hj hmem
    exact hR j hj hmem
  | cons p ps ih =>
    intro i st halign hR j hj hmem
    have halign0 : p = pkgAt pkgs i := by
      have := halign 0 (Nat.succ_pos ps.length)
      simpa using this
    have halign' : ∀ k, k < ps.length → ps.getD k default = pkgAt pkgs (i + 1 + k) := by
      intro k hk
      have := halign (k + 1) (Nat.succ_lt_succ hk)
      simpa [Nat.add_assoc, Nat.add_comm 1 k] using this
    obtain ⟨pk, tv, fe⟩ := st
    simp only [scanPackages] at hj ⊢
    by_cases hn : ((nm != p.Name) && (p.ID != "command-line-arguments")) = true
    · rw [if_pos hn] at hj ⊢
      exact ih (i + 1) (pk, tv, fe) halign' hR j hj hmem
    · rw [if_neg hn, scanFiles_char] at hj ⊢
      split_ifs at hj ⊢ with h1 h2 h3
      · exact ih (i + 1) (pk, tv, fe) halign' hR j hj hmem
      · exact ih (i + 1) (pk, some i, fe) halign'
          (fun j' hj' hmem' => hR j' hj' hmem') j hj hmem
      · exact ih (i + 1) (pk, some i, fe) halign'
          (fun j' hj' hmem' => hR j' hj' hmem') j hj hmem
      · refine ih (i + 1) _ halign' ?_ j hj hmem
        intro j' hj' hmem'
        have hji : j' = i := by
          have := hj'
          simp only at this
          exact (Option.some.inj this).symm
        subst hji
        have hbh : p.GoFiles.any (baseHit dir base) = true := by
          apply List.any_eq_true.mpr
          refine ⟨opath, ?_, ?_⟩
          · rw [halign0]; exact hmem'
          · simp [baseHit, hdir, hbase]
        simp [hbh]

/-- Top-level form of the previous invariant: when the search settles on
package `j` while reporting `fileExists = false`, the overlay file itself
is not among the files of package `j`. -/
theorem scan_top_not_mem (pkgs : List Package) (itf : Bool) (nm opath : String)
    (j : Nat) (tv : Option Nat)
    (hscan : scanPackages pkgs (filepathDir opath) (filepathBase opath) itf nm 0 pkgs
      (none, none, false) = (some j, tv, false)) :
    opath ∉ (pkgAt pkgs j).GoFiles := by
  intro hmem
  have hfe := scan_mem_fileExists pkgs (filepathDir opath) (filepathBase opath) itf nm
    opath (by simp [sameFile]) (by simp) pkgs 0 (none, none, false)
    (fun k hk => by simp [pkgAt])
    (fun j' hj' => by cases hj') j (by rw [hscan]) hmem
  rw [hscan] at hfe
  cases hfe

end Overlay

namespace Overlay

/-- Invariant of the search while no candidate package has been found:
`fileExists` is still false, and any recorded `testVariantOf` was set by
the test-file branch, so the search is for a test file and the recorded
package has no test files. -/
theorem scan_none_facts (pkgs : List Package) (dir base : String) (itf : Bool)
    (nm : String) :
    ∀ (rest : List Package) (i : Nat) (st : ScanSt),
    (∀ k, k < rest.length → rest.getD k default = pkgAt pkgs (i + k)) →
    (st.1 = none → st.2.2 = false ∧
      (∀ t, st.2.1 = some t → itf = true ∧ hasTestFiles (pkgAt pkgs t) = false)) →
    (scanPackages pkgs dir base itf nm i rest st).1 = none →
    (scanPackages pkgs dir base itf nm i rest st).2.2 = false ∧
    (∀ t, (scanPackages pkgs dir base itf nm i rest st).2.1 = some t →
      itf = true ∧ hasTestFiles (pkgAt pkgs t) = false) := by
  intro rest
  induction rest with
  | nil =>
    intro i st _ hQ hnone
    exact hQ hnone
  | cons p ps ih =>
    intro i st halign hQ hnone
    have halign0 : p = pkgAt pkgs i := by
      have := halign 0 (Nat.succ_pos ps.length)
      simpa using this
    have halign' : ∀ k, k < ps.length → ps.getD k default = pkgAt pkgs (i + 1 + k) := by
      intro k hk
      have := halign (k + 1) (Nat.succ_lt_succ hk)
      simpa [Nat.add_assoc, Nat.add_comm 1 k] using this
    obtain ⟨pk, tv, fe⟩ := st
    simp only [scanPackages] at hnone ⊢
    by_cases hn : ((nm != p.Name) && (p.ID != "command-line-arguments")) = true
    · rw [if_pos hn] at hnone ⊢
      exact ih (i + 1) (pk, tv, fe) halign' hQ hnone
    · rw [if_neg hn, scanFiles_char] at hnone ⊢
      split_ifs at hnone ⊢ with h1 h2 h3
      · exact ih (i + 1) (pk, tv, fe) halign' hQ hnone
      · refine ih (i + 1) (pk, some i, fe) halign' ?_ hnone
        intro hpk
        obtain ⟨hfe, -⟩ := hQ hpk
        refine ⟨hfe, fun t ht => ?_⟩
        have hti : t = i := by
          simp only at ht
          exact (Option.some.inj ht).symm
        subst hti
        have h2' := h2
        rw [Bool.and_eq_true] at h2'
        refine ⟨h2'.1, ?_⟩
        rw [← halign0]
        cases hh : hasTestFiles p
        · rfl
        · rw [hh] at h2'
          cases h2'.2
      · -- abort on an already-found candidate: the candidate is `some`,
        -- so no state with a lost candidate can arise here
        cases pk with
        | none => cases h3
        | some jp =>
          obtain ⟨j', hj'⟩ := scan_pk_mono pkgs dir base itf nm ps (i + 1)
            (some jp) (some i) fe jp rfl
          rw [hj'] at hnone
          cases hnone
      · obtain ⟨j', hj'⟩ := scan_pk_mono pkgs dir base itf nm ps (i + 1) (some i) _ _ i rfl
        rw [hj'] at hnone
        cases hnone

/-- Top-level form: when the search finds no candidate but records a
`testVariantOf`, the overlay file is a test file, the recorded package has
no test files, and `fileExists` is false. -/
theorem scan_top_none_facts (pkgs : List Package) (dir base : String) (itf : Bool)
    (nm : String) (tv : Option Nat) (fe : Bool)
    (hscan : scanPackages pkgs dir base itf nm 0 pkgs (none, none, false)
      = (none, tv, fe)) :
    fe = false ∧ ∀ t, tv = some t → itf = true ∧ hasTestFiles (pkgAt pkgs t) = false := by
  have h := scan_none_facts pkgs dir base itf nm pkgs 0 (none, none, false)
    (fun k hk => by simp [pkgAt])
    (fun _ => ⟨rfl, fun t ht => by cases ht⟩) (by rw [hscan])
  rw [hscan] at h
  exact h

end Overlay

namespace Overlay

/-- Exhaustive characterization of one overlay-loop iteration: the file is
skipped, the loop is left (break or fatal error), or the shared attach
tail (`finishFile`) runs on (a) an existing package found by the search,
(b) a reclaimed package, or (c) a brand-new package appended at the end of
the response, whose file lists start out empty or copied from the
`testVariantOf` production package. -/
theorem processOneFile_shape (roots : Option (List (String × String))) (op : String)
    (c : Contents) (st : OState) :
    processOneFile roots op c st = .cont st ∨
    processOneFile roots op c st = .brk st ∨
    processOneFile roots op c st = .fatal st ∨
    (∃ nm j tv fe,
      extractPackageName op c = some nm ∧
      scanPackages st.pkgs (filepathDir op) (filepathBase op)
        (strEndsWith op "_test.go") nm 0 st.pkgs (none, none, false) = (some j, tv, fe) ∧
      processOneFile roots op c st = finishFile st j tv fe op c) ∨
    (∃ nm tv fe id j pkgs',
      extractPackageName op c = some nm ∧
      scanPackages st.pkgs (filepathDir op) (filepathBase op)
        (strEndsWith op "_test.go") nm 0 st.pkgs (none, none, false) = (none, tv, fe) ∧
      reclaimLoop id op c st.pkgs = some (j, pkgs') ∧
      processOneFile roots op c st = finishFile { st with pkgs := pkgs' } j tv fe op c) ∨
    (∃ nm tv fe hp q,
      extractPackageName op c = some nm ∧
      scanPackages st.pkgs (filepathDir op) (filepathBase op)
        (strEndsWith op "_test.go") nm 0 st.pkgs (none, none, false) = (none, tv, fe) ∧
      q.Imports = [] ∧ q.Errors = [] ∧
      ((q.GoFiles = [] ∧ q.CompiledGoFiles = []) ∨
        (∃ t, tv = some t ∧ strEndsWith op "_test.go" = true ∧
          q.GoFiles = (pkgAt st.pkgs t).GoFiles ∧
          q.CompiledGoFiles = (pkgAt st.pkgs t).CompiledGoFiles)) ∧
      processOneFile roots op c st =
        finishFile { st with pkgs := st.pkgs ++ [q], havePkgs := hp }
          st.pkgs.length tv fe op c) := by
  cases hname : extractPackageName op c with
  | none =>
    refine Or.inl ?_
    simp only [processOneFile, hname]
  | some nm =>
    rcases hscan : scanPackages st.pkgs (filepathDir op) (filepathBase op)
        (strEndsWith op "_test.go") nm 0 st.pkgs (none, none, false) with ⟨pk, tv, fe⟩
    cases pk with
    | some j =>
      refine Or.inr (Or.inr (Or.inr (Or.inl ⟨nm, j, tv, fe, rfl, hscan, ?_⟩)))
      simp only [processOneFile, hname, hscan]
    | none =>
      cases roots with
      | none =>
        refine Or.inr (Or.inr (Or.inl ?_))
        simp only [processOneFile, hname, hscan]
      | some rs =>
        cases hg : getPkgPath rs (filepathDir op) with
        | none =>
          refine Or.inr (Or.inl ?_)
          simp only [processOneFile, hname, hscan, hg]
        | some pp0 =>
          by_cases hA : (strEndsWith op "_test.go" && !(strEndsWith nm "_test")) = true
          · have hA' := hA
            rw [Bool.and_eq_true] at hA'
            have hT : strEndsWith op "_test.go" = true := hA'.1
            have hX : strEndsWith nm "_test" = false := by
              cases hx : strEndsWith nm "_test"
              · rfl
              · rw [hx] at hA'
                cases hA'.2
            cases hrec : reclaimLoop (pp0 ++ " [" ++ pp0 ++ ".test]") op c st.pkgs with
            | some jp =>
              obtain ⟨j, pkgs'⟩ := jp
              refine Or.inr (Or.inr (Or.inr (Or.inr (Or.inl
                ⟨nm, tv, fe, pp0 ++ " [" ++ pp0 ++ ".test]", j, pkgs',
                 rfl, hscan, hrec, ?_⟩))))
              simp only [processOneFile, hname, hscan]
              simp only [hg, hT, hX, Bool.not_false, Bool.and_self, eq_self_iff_true,
                if_true, Bool.false_eq_true, if_false, hrec]
            | none =>
              cases tv with
              | some t =>
                refine Or.inr (Or.inr (Or.inr (Or.inr (Or.inr
                  ⟨nm, some t, fe,
                   mapSet st.havePkgs pp0 (pp0 ++ " [" ++ pp0 ++ ".test]"),
                   { ID := pp0 ++ " [" ++ pp0 ++ ".test]", PkgPath := pp0, Name := nm,
                     GoFiles := (pkgAt st.pkgs t).GoFiles,
                     CompiledGoFiles := (pkgAt st.pkgs t).CompiledGoFiles,
                     OtherFiles := [], ExportFile := "", Imports := [], Errors := [] },
                   rfl, hscan, rfl, rfl, Or.inr ⟨t, rfl, hT, rfl, rfl⟩, ?_⟩))))
                simp only [processOneFile, hname, hscan]
                simp only [hg, hT, hX, Bool.not_false, Bool.and_self, eq_self_iff_true,
                  if_true, Bool.false_eq_true, if_false, hrec]
              | none =>
                refine Or.inr (Or.inr (Or.inr (Or.inr (Or.inr
                  ⟨nm, none, fe,
                   mapSet st.havePkgs pp0 (pp0 ++ " [" ++ pp0 ++ ".test]"),
                   { ID := pp0 ++ " [" ++ pp0 ++ ".test]", PkgPath := pp0, Name := nm,
                     GoFiles := [], CompiledGoFiles := [],
                     OtherFiles := [], ExportFile := "", Imports := [], Errors := [] },
                   rfl, hscan, rfl, rfl, Or.inl ⟨rfl, rfl⟩, ?_⟩))))
                simp only [processOneFile, hname, hscan]
                simp only [hg, hT, hX, Bool.not_false, Bool.and_self, eq_self_iff_true,
                  if_true, Bool.false_eq_true, if_false, hrec]
          · have hA' : (strEndsWith op "_test.go" && !(strEndsWith nm "_test")) = false := by
              cases hx : (strEndsWith op "_test.go" && !(strEndsWith nm "_test"))
              · rfl
              · exact absurd hx hA
            cases hrec : reclaimLoop
                (if strEndsWith nm "_test" then pp0 ++ "_test" else pp0) op c st.pkgs with
            | some jp =>
              obtain ⟨j, pkgs'⟩ := jp
              refine Or.inr (Or.inr (Or.inr (Or.inr (Or.inl
                ⟨nm, tv, fe, (if strEndsWith nm "_test" then pp0 ++ "_test" else pp0),
                 j, pkgs', rfl, hscan, hrec, ?_⟩))))
              simp only [processOneFile, hname, hscan]
              simp only [hg, hA', Bool.false_eq_true, if_false, hrec]
            | none =>
              refine Or.inr (Or.inr (Or.inr (Or.inr (Or.inr
                ⟨nm, tv, fe,
                 mapSet st.havePkgs
                   (if strEndsWith nm "_test" then pp0 ++ "_test" else pp0)
                   (if strEndsWith nm "_test" then pp0 ++ "_test" else pp0),
                 { ID := (if strEndsWith nm "_test" then pp0 ++ "_test" else pp0),
                   PkgPath := (if strEndsWith nm "_test" then pp0 ++ "_test" else pp0),
                   Name := nm, GoFiles := [], CompiledGoFiles := [],
                   OtherFiles := [], ExportFile := "", Imports := [], Errors := [] },
                 rfl, hscan, rfl, rfl, Or.inl ⟨rfl, rfl⟩, ?_⟩))))
              simp only [processOneFile, hname, hscan]
              simp only [hg, hA', Bool.false_eq_true, if_false, hrec]

end Overlay

namespace Overlay

/-- Facts delivered by a successful reclamation: the candidate had no
source files, and the updated candidate keeps its identifier, package
path, and (empty) file lists. -/
theorem reclaimPackage_success (p : Package) (id fn : String) (c : Contents)
    (h : (reclaimPackage p id fn c).1 = true) :
    p.GoFiles = [] ∧ p.CompiledGoFiles = [] ∧
    (reclaimPackage p id fn c).2.ID = p.ID ∧
    (reclaimPackage p id fn c).2.PkgPath = p.PkgPath ∧
    (reclaimPackage p id fn c).2.GoFiles = p.GoFiles ∧
    (reclaimPackage p id fn c).2.CompiledGoFiles = p.CompiledGoFiles := by
  unfold reclaimPackage at h ⊢
  split_ifs at h ⊢ with h1 h2 h3 h4 h5
  case _ =>
    push_neg at h4
    obtain ⟨h4a, h4b, h4c⟩ := h4
    have hGo : p.GoFiles = [] := List.length_eq_zero.mp (by omega)
    have hCo : p.CompiledGoFiles = [] := List.length_eq_zero.mp (by omega)
    cases hc : extractPackageName fn c with
    | none =>
      rw [hc] at h
      exact Bool.noConfusion h
    | some nm =>
      exact ⟨hGo, hCo, rfl, rfl, rfl, rfl⟩

/-- Facts delivered by a successful pass of the reclamation loop: the
response keeps its length, the reclaimed slot had no source files, and
every slot keeps its identifier, package path and file lists. -/
theorem reclaimLoop_facts (id fn : String) (c : Contents) :
    ∀ (pkgs : List Package) (j : Nat) (pkgs' : List Package),
    reclaimLoop id fn c pkgs = some (j, pkgs') →
    pkgs'.length = pkgs.length ∧ j < pkgs.length ∧
    (pkgAt pkgs j).GoFiles = [] ∧ (pkgAt pkgs j).CompiledGoFiles = [] ∧
    ∀ k, (pkgAt pkgs' k).ID = (pkgAt pkgs k).ID ∧
      (pkgAt pkgs' k).PkgPath = (pkgAt pkgs k).PkgPath ∧
      (pkgAt pkgs' k).GoFiles = (pkgAt pkgs k).GoFiles ∧
      (pkgAt pkgs' k).CompiledGoFiles = (pkgAt pkgs k).CompiledGoFiles := by
  intro pkgs
  induction pkgs with
  | nil =>
    intro j pkgs' h
    exact Option.noConfusion h
  | cons p ps ih =>
    intro j pkgs' h
    cases hr : (reclaimPackage p id fn c).1 with
    | true =>
      have hsucc := reclaimPackage_success p id fn c hr
      rw [show reclaimLoop id fn c (p :: ps)
          = some (0, (reclaimPackage p id fn c).2 :: ps) from by
        simp only [reclaimLoop, hr, if_true]] at h
      injection h with h'
      rw [Prod.mk.injEq] at h'
      obtain ⟨hj, hl⟩ := h'
      subst hj
      subst hl
      refine ⟨rfl, Nat.succ_pos ps.length, hsucc.1, hsucc.2.1, ?_⟩
      intro k
      cases k with
      | zero =>
        exact ⟨hsucc.2.2.1, hsucc.2.2.2.1, hsucc.2.2.2.2.1, hsucc.2.2.2.2.2⟩
      | succ m => exact ⟨rfl, rfl, rfl, rfl⟩
    | false =>
      rw [show reclaimLoop id fn c (p :: ps)
          = (match reclaimLoop id fn c ps with
             | some (j0, ps0) => some (j0 + 1, p :: ps0)
             | none => none) from by
        simp only [reclaimLoop, hr, Bool.false_eq_true, if_false]] at h
      cases hrec : reclaimLoop id fn c ps with
      | none =>
        rw [hrec] at h
        exact Option.noConfusion h
      | some jp =>
        obtain ⟨j0, ps0⟩ := jp
        rw [hrec] at h
        injection h with h'
        rw [Prod.mk.injEq] at h'
        obtain ⟨hj, hl⟩ := h'
        subst hj
        subst hl
        obtain ⟨l1, l2, l3, l4, l5⟩ := ih j0 ps0 hrec
        refine ⟨by simp [l1], Nat.succ_lt_succ l2, l3, l4, ?_⟩
        intro k
        cases k with
        | zero => exact ⟨rfl, rfl, rfl, rfl⟩
        | succ m => exact l5 m

/-- The response only grows: the old length is a lower bound and every old
slot keeps its identifier and package path. -/
def preservesIds (pkgs0 pkgs1 : List Package) : Prop :=
  pkgs0.length ≤ pkgs1.length ∧
  ∀ k, k < pkgs0.length →
    (pkgAt pkgs1 k).ID = (pkgAt pkgs0 k).ID ∧
    (pkgAt pkgs1 k).PkgPath = (pkgAt pkgs0 k).PkgPath

theorem preservesIds_refl (pkgs : List Package) : preservesIds pkgs pkgs :=
  ⟨Nat.le_refl _, fun _ _ => ⟨rfl, rfl⟩⟩

theorem preservesIds_trans {a b c : List Package}
    (h1 : preservesIds a b) (h2 : preservesIds b c) : preservesIds a c := by
  refine ⟨Nat.le_trans h1.1 h2.1, fun k hk => ?_⟩
  have hb := h1.2 k hk
  have hc := h2.2 k (Nat.lt_of_lt_of_le hk h1.1)
  exact ⟨hc.1.trans hb.1, hc.2.trans hb.2⟩

theorem preservesIds_of_skeleton {pkgs0 pkgs1 : List Package}
    (hlen : pkgs1.length = pkgs0.length)
    (hs : ∀ k, samePkgSkeleton (pkgAt pkgs1 k) (pkgAt pkgs0 k)) :
    preservesIds pkgs0 pkgs1 :=
  ⟨Nat.le_of_eq hlen.symm, fun k _ => ⟨(hs k).1, (hs k).2.1⟩⟩

theorem preservesIds_attach (st : OState) (j : Nat) (op : String) (fe : Bool) :
    preservesIds st.pkgs (attachFile st j op fe).pkgs := by
  cases fe with
  | true =>
    rw [attachFile_true]
    exact preservesIds_refl _
  | false =>
    rw [attachFile_false]
    refine ⟨Nat.le_of_eq (updateAt_length _ _ _).symm, fun k hk => ?_⟩
    show (pkgAt (updateAt st.pkgs j _) k).ID = _ ∧ (pkgAt (updateAt st.pkgs j _) k).PkgPath = _
    rw [pkgAt_updateAt]
    split_ifs with h
    · obtain ⟨rfl, -⟩ := h
      exact ⟨rfl, rfl⟩
    · exact ⟨rfl, rfl⟩

theorem preservesIds_finishFile (st : OState) (j : Nat) (tv : Option Nat) (fe : Bool)
    (op : String) (c : Contents) :
    preservesIds st.pkgs (outState (finishFile st j tv fe op c)).pkgs := by
  simp only [finishFile, extractImports]
  cases c.importList with
  | none => exact preservesIds_attach st j op fe
  | some imps =>
    obtain ⟨hl, hm, hs⟩ := addImportList_skeleton j tv imps (attachFile st j op fe)
    exact preservesIds_trans (preservesIds_attach st j op fe)
      (preservesIds_of_skeleton hl hs)

theorem preservesIds_append (pkgs : List Package) (q : Package) :
    preservesIds pkgs (pkgs ++ [q]) := by
  refine ⟨by simp, fun k hk => ?_⟩
  rw [pkgAt_append_lt _ _ _ hk]
  exact ⟨rfl, rfl⟩

/-- One overlay-loop iteration never deletes a package and never changes
an existing identifier or package path. -/
theorem processOneFile_preservesIds (roots : Option (List (String × String)))
    (op : String) (c : Contents) (st : OState) :
    preservesIds st.pkgs (outState (processOneFile roots op c st)).pkgs := by
  rcases processOneFile_shape roots op c st with heq | heq | heq |
    ⟨nm, j, tv, fe, -, -, heq⟩ | ⟨nm, tv, fe, id, j, pkgs', -, -, hrec, heq⟩ |
    ⟨nm, tv, fe, hp, q, -, -, -, -, -, heq⟩
  · rw [heq]; exact preservesIds_refl _
  · rw [heq]; exact preservesIds_refl _
  · rw [heq]; exact preservesIds_refl _
  · rw [heq]
    exact preservesIds_finishFile st j tv fe op c
  · rw [heq]
    obtain ⟨l1, -, -, -, l5⟩ := reclaimLoop_facts id op c st.pkgs j pkgs' hrec
    refine preservesIds_trans ?_
      (preservesIds_finishFile { st with pkgs := pkgs' } j tv fe op c)
    exact ⟨Nat.le_of_eq l1.symm, fun k _ => ⟨(l5 k).1, (l5 k).2.1⟩⟩
  · rw [heq]
    exact preservesIds_trans (preservesIds_append st.pkgs q)
      (preservesIds_finishFile { st with pkgs := st.pkgs ++ [q], havePkgs := hp }
        st.pkgs.length tv fe op c)

/-- Induction principle for the overlay loop: a property of the loop state
preserved by every iteration holds of the final state, whether the loop
ran to completion, broke early, or stopped on a fatal error. -/
theorem processFiles_ind (roots : Option (List (String × String))) (P : OState → Prop)
    (hstep : ∀ op c st, P st → P (outState (processOneFile roots op c st))) :
    ∀ (ov : List (String × Contents)) (st : OState), P st →
    P (runState (processFiles roots ov st)) := by
  intro ov
  induction ov with
  | nil => intro st h; exact h
  | cons e ov ih =>
    obtain ⟨op, c⟩ := e
    intro st h
    have h2 := hstep op c st h
    simp only [processFiles]
    cases hpo : processOneFile roots op c st with
    | cont st2 =>
      rw [hpo] at h2
      exact ih st2 h2
    | brk st2 =>
      rw [hpo] at h2
      exact h2
    | fatal st2 =>
      rw [hpo] at h2
      exact h2

/-! ### C9 -/

/-- Claim C9 (confirmed): no package is ever deleted during
reconciliation.  Every package of the input response is still present —
at its slot, with its identifier and package path intact — in the
response `processGolistOverlay` returns, on the normal path and on the
fatal-error path alike; the response only gains packages. -/
theorem claim9_no_package_deleted (roots : Option (List (String × String)))
    (overlay : List (String × Contents)) (pkgs0 : List Package) :
    preservesIds pkgs0 (resultPkgs (processGolistOverlay roots overlay pkgs0)) := by
  have hrun : resultPkgs (processGolistOverlay roots overlay pkgs0)
      = (runState (processFiles roots overlay (initState pkgs0))).pkgs := by
    unfold processGolistOverlay
    cases processFiles roots overlay (initState pkgs0) <;> rfl
  rw [hrun]
  exact processFiles_ind roots (fun s => preservesIds pkgs0 s.pkgs)
    (fun op c s h => preservesIds_trans h (processOneFile_preservesIds roots op c s))
    overlay (initState pkgs0) (preservesIds_refl pkgs0)

/-- Witness for C9: after a run that both attaches a file and introduces a
new import, the input package is still present with its identifier. -/
theorem claim9_witness :
    ([fixA] : List Package).length ≤
      (resultPkgs (processGolistOverlay (some [("/w", "")])
        [("/w/pkg/a/b.go", ⟨some "a", some ["newimp"]⟩)] [fixA])).length ∧
    (pkgAt (resultPkgs (processGolistOverlay (some [("/w", "")])
        [("/w/pkg/a/b.go", ⟨some "a", some ["newimp"]⟩)] [fixA])) 0).ID
      = (pkgAt [fixA] 0).ID :=
  ⟨(claim9_no_package_deleted (some [("/w", "")])
      [("/w/pkg/a/b.go", ⟨some "a", some ["newimp"]⟩)] [fixA]).1,
   ((claim9_no_package_deleted (some [("/w", "")])
      [("/w/pkg/a/b.go", ⟨some "a", some ["newimp"]⟩)] [fixA]).2 0 (by decide)).1⟩

end Overlay

namespace Overlay

/-- The per-package invariant behind idempotent attachment: the overlay
path occurs at most once in each file list, and only in the compiled list
if also in the regular list. -/
def fileOnce (opath : String) (p : Package) : Prop :=
  p.GoFiles.count opath ≤ 1 ∧ p.CompiledGoFiles.count opath ≤ 1 ∧
  (opath ∈ p.CompiledGoFiles → opath ∈ p.GoFiles)

/-- The invariant over the whole response. -/
def atMostOnce (opath : String) (pkgs : List Package) : Prop :=
  ∀ k, fileOnce opath (pkgAt pkgs k)

theorem fileOnce_default (opath : String) : fileOnce opath default := by
  refine ⟨?_, ?_, ?_⟩
  · show ([] : List String).count opath ≤ 1
    simp
  · show ([] : List String).count opath ≤ 1
    simp
  · intro hx
    exact absurd hx (List.not_mem_nil _)

theorem fileOnce_append (op opath : String) (p : Package) (h : fileOnce opath p)
    (hni : op = opath → opath ∉ p.GoFiles) :
    fileOnce opath
      { p with GoFiles := p.GoFiles ++ [op], CompiledGoFiles := p.CompiledGoFiles ++ [op] } := by
  by_cases hop : op = opath
  · subst hop
    have hgo : op ∉ p.GoFiles := hni rfl
    have hco : op ∉ p.CompiledGoFiles := fun hc => hgo (h.2.2 hc)
    have hgc : p.GoFiles.count op = 0 := List.count_eq_zero.mpr hgo
    have hcc : p.CompiledGoFiles.count op = 0 := List.count_eq_zero.mpr hco
    refine ⟨?_, ?_, ?_⟩
    · show (p.GoFiles ++ [op]).count op ≤ 1
      simp [List.count_append, hgc]
    · show (p.CompiledGoFiles ++ [op]).count op ≤ 1
      simp [List.count_append, hcc]
    · intro _
      simp [List.mem_append]
  · have hcount : ∀ l : List String, (l ++ [op]).count opath = l.count opath := by
      intro l
      have : ([op] : List String).count opath = 0 :=
        List.count_eq_zero.mpr (by simp [hop, Ne.symm])
      simp [List.count_append, this]
    refine ⟨?_, ?_, ?_⟩
    · show (p.GoFiles ++ [op]).count opath ≤ 1
      rw [hcount]
      exact h.1
    · show (p.CompiledGoFiles ++ [op]).count opath ≤ 1
      rw [hcount]
      exact h.2.1
    · intro hx
      rcases List.mem_append.mp hx with hx | hx
      · exact List.mem_append_left _ (h.2.2 hx)
      · rw [List.mem_singleton] at hx
        exact absurd hx.symm hop

/-- The invariant only looks at the two file lists, so it transfers along
any transformation preserving them. -/
theorem atMostOnce_of_lists (opath : String) {pkgs0 pkgs1 : List Package}
    (hs : ∀ k, (pkgAt pkgs1 k).GoFiles = (pkgAt pkgs0 k).GoFiles ∧
      (pkgAt pkgs1 k).CompiledGoFiles = (pkgAt pkgs0 k).CompiledGoFiles)
    (h : atMostOnce opath pkgs0) : atMostOnce opath pkgs1 := by
  intro k
  have hk := h k
  have hsk := hs k
  unfold fileOnce at hk ⊢
  rw [hsk.1, hsk.2]
  exact hk

theorem atMostOnce_attach (opath : String) (st : OState) (j : Nat) (op : String)
    (fe : Bool) (h : atMostOnce opath st.pkgs)
    (hni : fe = false → op = opath → opath ∉ (pkgAt st.pkgs j).GoFiles) :
    atMostOnce opath (attachFile st j op fe).pkgs := by
  cases fe with
  | false =>
    rw [attachFile_false]
    intro k
    show fileOnce opath (pkgAt (updateAt st.pkgs j _) k)
    rw [pkgAt_updateAt]
    split_ifs with hc
    · obtain ⟨rfl, -⟩ := hc
      exact fileOnce_append op opath _ (h k) (hni rfl)
    · exact h k
  | true =>
    rw [attachFile_true]
    exact h

theorem atMostOnce_finishFile (opath : String) (st : OState) (j : Nat) (tv : Option Nat)
    (fe : Bool) (op : String) (c : Contents) (h : atMostOnce opath st.pkgs)
    (hni : fe = false → op = opath → opath ∉ (pkgAt st.pkgs j).GoFiles) :
    atMostOnce opath (outState (finishFile st j tv fe op c)).pkgs := by
  simp only [finishFile, extractImports]
  cases c.importList with
  | none => exact atMostOnce_attach opath st j op fe h hni
  | some imps =>
    obtain ⟨-, -, hs⟩ := addImportList_skeleton j tv imps (attachFile st j op fe)
    exact atMostOnce_of_lists opath (fun k => ⟨(hs k).2.2.2.1, (hs k).2.2.2.2.1⟩)
      (atMostOnce_attach opath st j op fe h hni)

theorem pkgAt_of_ge (pkgs : List Package) (k : Nat) (h : pkgs.length ≤ k) :
    pkgAt pkgs k = default := by
  induction pkgs generalizing k with
  | nil => cases k <;> rfl
  | cons p ps ih =>
    cases k with
    | zero => simp at h
    | succ n =>
      show pkgAt ps n = default
      exact ih n (by simpa [Nat.succ_le_succ_iff] using h)

theorem atMostOnce_append (opath : String) (pkgs : List Package) (q : Package)
    (h : atMostOnce opath pkgs) (hq : fileOnce opath q) :
    atMostOnce opath (pkgs ++ [q]) := by
  intro k
  rcases Nat.lt_trichotomy k pkgs.length with hk | hk | hk
  · rw [pkgAt_append_lt _ _ _ hk]
    exact h k
  · rw [hk, pkgAt_append_length]
    exact hq
  · rw [pkgAt_of_ge _ _ (by simp [List.length_append]; omega)]
    exact fileOnce_default opath

/-- One overlay-loop iteration preserves the at-most-once invariant for
every path. -/
theorem processOneFile_atMostOnce (roots : Option (List (String × String)))
    (op : String) (c : Contents) (st : OState) (opath : String)
    (h : atMostOnce opath st.pkgs) :
    atMostOnce opath (outState (processOneFile roots op c st)).pkgs := by
  rcases processOneFile_shape roots op c st with heq | heq | heq |
    ⟨nm, j, tv, fe, hname, hscan, heq⟩ | ⟨nm, tv, fe, id, j, pkgs', -, -, hrec, heq⟩ |
    ⟨nm, tv, fe, hp, q, -, hscan, -, -, hq, heq⟩
  · rw [heq]; exact h
  · rw [heq]; exact h
  · rw [heq]; exact h
  · rw [heq]
    apply atMostOnce_finishFile opath st j tv fe op c h
    intro hfe hop
    subst hfe
    subst hop
    exact scan_top_not_mem st.pkgs (strEndsWith op "_test.go") nm op j tv hscan
  · rw [heq]
    obtain ⟨l1, l2, l3, l4, l5⟩ := reclaimLoop_facts id op c st.pkgs j pkgs' hrec
    apply atMostOnce_finishFile opath { st with pkgs := pkgs' } j tv fe op c
    · exact atMostOnce_of_lists opath (fun k => ⟨(l5 k).2.2.1, (l5 k).2.2.2⟩) h
    · intro hfe hop
      rw [show (pkgAt pkgs' j).GoFiles = [] from ((l5 j).2.2.1).trans l3]
      exact List.not_mem_nil _
  · rw [heq]
    have hq' : fileOnce opath q := by
      rcases hq with ⟨hg, hc⟩ | ⟨t, htv, hT, hg, hc⟩
      · exact ⟨by simp [hg], by simp [hc],
          fun hx => by rw [hc] at hx; exact absurd hx (List.not_mem_nil _)⟩
      · have ht := h t
        unfold fileOnce at ht ⊢
        rw [hg, hc]
        exact ht
    apply atMostOnce_finishFile opath
      { st with pkgs := st.pkgs ++ [q], havePkgs := hp } st.pkgs.length tv fe op c
    · exact atMostOnce_append opath st.pkgs q h hq'
    · intro hfe hop
      subst hfe
      rw [show pkgAt ({ st with pkgs := st.pkgs ++ [q], havePkgs := hp } : OState).pkgs
          st.pkgs.length = q from pkgAt_append_length _ _]
      rcases hq with ⟨hg, -⟩ | ⟨t, htv, hT, hg, -⟩
      · rw [hg]
        exact List.not_mem_nil _
      · subst hop
        subst htv
        have hfacts := scan_top_none_facts st.pkgs (filepathDir op) (filepathBase op)
          (strEndsWith op "_test.go") nm (some t) false hscan
        have htf : hasTestFiles (pkgAt st.pkgs t) = false := (hfacts.2 t rfl).2
        rw [hg]
        intro hmem
        have htrue : hasTestFiles (pkgAt st.pkgs t) = true :=
          List.any_eq_true.mpr ⟨op, hmem, hT⟩
        rw [htf] at htrue
        cases htrue

/-- Computing the final response out of the two phases of
`processGolistOverlay`. -/
theorem resultPkgs_runState (roots : Option (List (String × String)))
    (overlay : List (String × Contents)) (pkgs0 : List Package) :
    resultPkgs (processGolistOverlay roots overlay pkgs0)
      = (runState (processFiles roots overlay (initState pkgs0))).pkgs := by
  unfold processGolistOverlay
  cases processFiles roots overlay (initState pkgs0) <;> rfl

/-! ### C7 -/

/-- Claim C7 (confirmed): attachment is idempotent on file-list
membership.  If every package of the input carries a given overlay path at
most once in each file list (in particular zero times, the normal
situation), the same holds of every package after reconciliation — and
again after reconciliation runs a second time over the same overlay, so a
file placed in the directory of an existing package with a matching name
is appended at most once no matter how often reconciliation runs. -/
theorem claim7_attach_idempotent (roots : Option (List (String × String)))
    (overlay : List (String × Contents)) (pkgs0 : List Package) (opath : String)
    (h : atMostOnce opath pkgs0) :
    atMostOnce opath (resultPkgs (processGolistOverlay roots overlay pkgs0)) ∧
    atMostOnce opath (resultPkgs (processGolistOverlay roots overlay
      (resultPkgs (processGolistOverlay roots overlay pkgs0)))) := by
  have hone : ∀ pkgs, atMostOnce opath pkgs →
      atMostOnce opath (resultPkgs (processGolistOverlay roots overlay pkgs)) := by
    intro pkgs hp
    rw [resultPkgs_runState]
    exact processFiles_ind roots (fun s => atMostOnce opath s.pkgs)
      (fun op c s hs => processOneFile_atMostOnce roots op c s opath hs)
      overlay (initState pkgs) hp
  exact ⟨hone pkgs0 h, hone _ (hone pkgs0 h)⟩

/-- Witness for C7: the concrete attach scenario, run twice. -/
theorem claim7_witness :
    fileOnce "/w/pkg/a/b.go"
      (pkgAt (resultPkgs (processGolistOverlay (some [("/w", "")])
        [("/w/pkg/a/b.go", ⟨some "a", some []⟩)] [fixA])) 0) ∧
    fileOnce "/w/pkg/a/b.go"
      (pkgAt (resultPkgs (processGolistOverlay (some [("/w", "")])
        [("/w/pkg/a/b.go", ⟨some "a", some []⟩)]
        (resultPkgs (processGolistOverlay (some [("/w", "")])
          [("/w/pkg/a/b.go", ⟨some "a", some []⟩)] [fixA])))) 0) := by
  have h0 : atMostOnce "/w/pkg/a/b.go" [fixA] := by
    intro k
    cases k with
    | zero =>
      unfold fileOnce
      exact ⟨by decide, by decide, by decide⟩
    | succ n =>
      have hd : pkgAt [fixA] (n + 1) = default := by
        show pkgAt [] n = default
        cases n <;> rfl
      rw [hd]
      exact fileOnce_default _
  exact ⟨(claim7_attach_idempotent (some [("/w", "")])
      [("/w/pkg/a/b.go", ⟨some "a", some []⟩)] [fixA] "/w/pkg/a/b.go" h0).1 0,
    (claim7_attach_idempotent (some [("/w", "")])
      [("/w/pkg/a/b.go", ⟨some "a", some []⟩)] [fixA] "/w/pkg/a/b.go" h0).2 0⟩

end Overlay

namespace Overlay

/-- The inner fold of the needed-package scan keeps the accumulator free
of duplicates. -/
theorem needInner_nodup (hav : List (String × String)) :
    ∀ (imps : List (String × String)) (acc : List String), acc.Nodup →
    (imps.foldl (fun acc e =>
      if (mapLookup hav (toPkgPath e.2)).isNone then insertSet acc (toPkgPath e.2)
      else acc) acc).Nodup := by
  intro imps
  induction imps with
  | nil => intro acc h; exact h
  | cons e imps ih =>
    intro acc h
    simp only [List.foldl_cons]
    apply ih
    by_cases hc : (mapLookup hav (toPkgPath e.2)).isNone = true
    · rw [if_pos hc]
      exact insertSet_nodup _ _ h
    · rw [if_neg hc]
      exact h

/-- Membership in the inner fold of the needed-package scan: a path is
collected exactly when it was already collected or some import edge of the
package points (through `toPkgPath`) at it and it is absent from
`havePkgs`. -/
theorem needInner_mem (hav : List (String × String)) :
    ∀ (imps : List (String × String)) (acc : List String) (path : String),
    path ∈ imps.foldl (fun acc e =>
      if (mapLookup hav (toPkgPath e.2)).isNone then insertSet acc (toPkgPath e.2)
      else acc) acc ↔
      path ∈ acc ∨ (mapLookup hav path = none ∧ ∃ e ∈ imps, toPkgPath e.2 = path) := by
  intro imps
  induction imps with
  | nil =>
    intro acc path
    simp
  | cons e imps ih =>
    intro acc path
    simp only [List.foldl_cons]
    by_cases hc : (mapLookup hav (toPkgPath e.2)).isNone = true
    · rw [if_pos hc]
      rw [ih]
      constructor
      · rintro (hx | ⟨hl, e', he', hp⟩)
        · rcases (mem_insertSet acc (toPkgPath e.2) path).mp hx with hx | heq
          · exact Or.inl hx
          · refine Or.inr ⟨?_, e, List.mem_cons_self e imps, heq.symm⟩
            rw [heq]
            exact Option.isNone_iff_eq_none.mp hc
        · exact Or.inr ⟨hl, e', List.mem_cons_of_mem e he', hp⟩
      · rintro (hx | ⟨hl, e', he', hp⟩)
        · exact Or.inl ((mem_insertSet acc (toPkgPath e.2) path).mpr (Or.inl hx))
        · rcases List.mem_cons.mp he' with rfl | he'
          · exact Or.inl ((mem_insertSet acc (toPkgPath e'.2) path).mpr (Or.inr hp.symm))
          · exact Or.inr ⟨hl, e', he', hp⟩
    · rw [if_neg hc]
      rw [ih]
      constructor
      · rintro (hx | ⟨hl, e', he', hp⟩)
        · exact Or.inl hx
        · exact Or.inr ⟨hl, e', List.mem_cons_of_mem e he', hp⟩
      · rintro (hx | ⟨hl, e', he', hp⟩)
        · exact Or.inl hx
        · rcases List.mem_cons.mp he' with rfl | he'
          · exfalso
            apply hc
            rw [hp]
            exact Option.isNone_iff_eq_none.mpr hl
          · exact Or.inr ⟨hl, e', he', hp⟩

/-- The outer fold of the needed-package scan keeps the accumulator free
of duplicates. -/
theorem needOuter_nodup (hav : List (String × String)) :
    ∀ (pkgs : List Package) (acc : List String), acc.Nodup →
    (pkgs.foldl (fun acc pkg =>
      pkg.Imports.foldl (fun acc e =>
        if (mapLookup hav (toPkgPath e.2)).isNone then insertSet acc (toPkgPath e.2)
        else acc) acc) acc).Nodup := by
  intro pkgs
  induction pkgs with
  | nil => intro acc h; exact h
  | cons p pkgs ih =>
    intro acc h
    simp only [List.foldl_cons]
    exact ih _ (needInner_nodup hav p.Imports acc h)

/-- Membership in the outer fold of the needed-package scan. -/
theorem needOuter_mem (hav : List (String × String)) :
    ∀ (pkgs : List Package) (acc : List String) (path : String),
    path ∈ pkgs.foldl (fun acc pkg =>
      pkg.Imports.foldl (fun acc e =>
        if (mapLookup hav (toPkgPath e.2)).isNone then insertSet acc (toPkgPath e.2)
        else acc) acc) acc ↔
      path ∈ acc ∨ (mapLookup hav path = none ∧
        ∃ pkg ∈ pkgs, ∃ e ∈ pkg.Imports, toPkgPath e.2 = path) := by
  intro pkgs
  induction pkgs with
  | nil =>
    intro acc path
    simp
  | cons p pkgs ih =>
    intro acc path
    simp only [List.foldl_cons]
    rw [ih, needInner_mem]
    constructor
    · rintro ((hx | ⟨hl, e', he', hp⟩) | ⟨hl, pkg, hpkg, e', he', hp⟩)
      · exact Or.inl hx
      · exact Or.inr ⟨hl, p, List.mem_cons_self p pkgs, e', he', hp⟩
      · exact Or.inr ⟨hl, pkg, List.mem_cons_of_mem p hpkg, e', he', hp⟩
    · rintro (hx | ⟨hl, pkg, hpkg, e', he', hp⟩)
      · exact Or.inl (Or.inl hx)
      · rcases List.mem_cons.mp hpkg with rfl | hpkg
        · exact Or.inl (Or.inr ⟨hl, e', he', hp⟩)
        · exact Or.inr ⟨hl, pkg, hpkg, e', he', hp⟩

/-! ### C6 -/

/-- Claim C6 (confirmed): the needed-package output.  When the overlay
loop ends in state `stF`: if no overlay file introduced a new import (the
`overlayAddsImports` flag is still false) the needed-package output is nil
regardless of how many packages were modified; if some overlay file did
introduce a new import, the output is the needed-package scan of the final
response, which contains no duplicates — it lists each path exactly once —
and contains precisely the paths that some import edge of some response
package points at (after stripping the test-variant suffix) and that are
absent from the final `havePkgs` map. -/
theorem claim6_new_import_needed_once (roots : Option (List (String × String)))
    (overlay : List (String × Contents)) (pkgs0 : List Package) (stF : OState)
    (hrun : processFiles roots overlay (initState pkgs0) = RunOutcome.ok stF) :
    (stF.addsImports = false →
      processGolistOverlay roots overlay pkgs0 = .ok stF.modified none stF.pkgs) ∧
    (stF.addsImports = true →
      processGolistOverlay roots overlay pkgs0
        = .ok stF.modified (some (computeNeed stF.pkgs stF.havePkgs)) stF.pkgs ∧
      (computeNeed stF.pkgs stF.havePkgs).Nodup ∧
      ∀ path, path ∈ computeNeed stF.pkgs stF.havePkgs ↔
        (mapLookup stF.havePkgs path = none ∧
         ∃ pkg ∈ stF.pkgs, ∃ e ∈ pkg.Imports, toPkgPath e.2 = path)) := by
  constructor
  · intro hA
    unfold processGolistOverlay
    rw [hrun]
    simp only [hA, Bool.false_eq_true, if_false]
  · intro hA
    refine ⟨?_, ?_, ?_⟩
    · unfold processGolistOverlay
      rw [hrun]
      simp only [hA, if_true]
    · unfold computeNeed
      exact needOuter_nodup stF.havePkgs stF.pkgs [] List.nodup_nil
    · intro path
      unfold computeNeed
      rw [needOuter_mem]
      simp only [List.not_mem_nil, false_or]

/-- The package `pkg/a` after the overlay attached `b.go` and recorded the
unresolved import `newimp`. -/
def fixA6 : Package :=
  { ID := "pkg/a", PkgPath := "pkg/a", Name := "a",
    GoFiles := ["/w/pkg/a/a.go", "/w/pkg/a/b.go"],
    CompiledGoFiles := ["/w/pkg/a/a.go", "/w/pkg/a/b.go"],
    OtherFiles := [], ExportFile := "", Imports := [("newimp", "newimp")], Errors := [] }

/-- The loop state after that overlay run. -/
def stC6 : OState :=
  { pkgs := [fixA6],
    havePkgs := [("pkg/a", "pkg/a")],
    modified := ["pkg/a"],
    addsImports := true }

/-- Witness for C6: a run whose single overlay file introduces one
unresolvable import; its path is reported, exactly once. -/
theorem claim6_witness :
    processGolistOverlay (some [("/w", "")])
      [("/w/pkg/a/b.go", ⟨some "a", some ["newimp"]⟩)] [fixA]
      = .ok stC6.modified (some (computeNeed stC6.pkgs stC6.havePkgs)) stC6.pkgs ∧
    (computeNeed stC6.pkgs stC6.havePkgs).Nodup :=
  ⟨((claim6_new_import_needed_once (some [("/w", "")])
      [("/w/pkg/a/b.go", ⟨some "a", some ["newimp"]⟩)] [fixA] stC6 (by decide)).2 rfl).1,
   ((claim6_new_import_needed_once (some [("/w", "")])
      [("/w/pkg/a/b.go", ⟨some "a", some ["newimp"]⟩)] [fixA] stC6 (by decide)).2 rfl).2.1⟩

end Overlay
